import Mathlib

/-!
# Calculator: shunting-yard conversion and postfix evaluation

A shallow embedding of `calculator.go` (`Calc`, `evaluatePostfix`, `isNumber`,
`calculateHandler`).

* Strings are sequences of runes; the `range` loop of `Calc` visits them in order.
* The two stacks are lists whose head is the top of the stack (the last element
  of the Go slice); `output` is a list in append order.
* `float64` and `strconv.ParseFloat` are library code: they are taken as a
  parameter (`FloatOps`), so every general theorem holds for the IEEE operations
  as for any other. `decOps` is an exact decimal instance used to evaluate the
  code on concrete inputs.
* Go errors are values of `CalcError`; `CalcError.message` is their text. Where
  the identity of an error value matters (`errors.Is` in the handler), it is an
  `ErrorValue` with the address of its allocation.
-/

namespace Calculator

/-! ## Errors -/

/-- The errors `Calc` and `evaluatePostfix` can return. `parse msg` is the error
value of `strconv.ParseFloat`, passed on unchanged by `evaluatePostfix`. -/
inductive CalcError where
  | emptyExpression
  | mismatchedParentheses
  | invalidCharacter (ch : Char)
  | parse (msg : String)
  | notEnoughOperands (token : String)
  | divisionByZero
  | invalidOperation (token : String)
  | invalidExpression
  deriving DecidableEq

/-- The text of an error, as built by `errors.New` in the source. -/
def CalcError.message : CalcError → String
  | .emptyExpression => "empty expression"
  | .mismatchedParentheses => "mismatched parentheses"
  | .invalidCharacter ch => "invalid character: " ++ String.singleton ch
  | .parse msg => msg
  | .notEnoughOperands token => "not enough operands for operation: " ++ token
  | .divisionByZero => "division by zero"
  | .invalidOperation token => "invalid operation: " ++ token
  | .invalidExpression => "invalid expression"

deriving instance DecidableEq for Except

/-! ## The numeric domain -/

/-- The `float64` operations used by the source and `strconv.ParseFloat(·, 64)`.
`isZero b` is the test `b == 0`. `parseFloat` returns the parsed value or the
text of the library's error. `parseFloat_operator` records that a lone operator
character is not a number for `strconv.ParseFloat` (it holds no digit). -/
structure FloatOps (F : Type) where
  parseFloat : String → Except String F
  add : F → F → F
  sub : F → F → F
  mul : F → F → F
  div : F → F → F
  isZero : F → Bool
  parseFloat_operator : ∀ ch : Char, ch = '+' ∨ ch = '-' ∨ ch = '*' ∨ ch = '/' →
    ∃ msg, parseFloat (String.singleton ch) = Except.error msg

/-- Source `isNumber`: the token parses without error. -/
def isNumber {F : Type} (M : FloatOps F) (token : String) : Bool :=
  match M.parseFloat token with
  | .ok _ => true
  | .error _ => false

/-! ## Postfix evaluation -/

/-- One iteration of the loop of `evaluatePostfix` on `token`, with operand stack
`stack` (head = top). -/
def evalStep {F : Type} (M : FloatOps F) (token : String) (stack : List F) :
    Except CalcError (List F) :=
  if isNumber M token then
    match M.parseFloat token with
    | .error msg => .error (.parse msg)
    | .ok num => .ok (num :: stack)
  else
    match stack with
    | b :: a :: rest =>
      if token = "+" then .ok (M.add a b :: rest)
      else if token = "-" then .ok (M.sub a b :: rest)
      else if token = "*" then .ok (M.mul a b :: rest)
      else if token = "/" then
        if M.isZero b then .error .divisionByZero else .ok (M.div a b :: rest)
      else .error (.invalidOperation token)
    | _ => .error (.notEnoughOperands token)

/-- The loop of `evaluatePostfix` over the remaining tokens. -/
def evalLoop {F : Type} (M : FloatOps F) : List String → List F → Except CalcError (List F)
  | [], stack => .ok stack
  | token :: rest, stack =>
    match evalStep M token stack with
    | .error e => .error e
    | .ok stack' => evalLoop M rest stack'

/-- Source `evaluatePostfix`. -/
def evaluatePostfix {F : Type} (M : FloatOps F) (tokens : List String) : Except CalcError F :=
  match evalLoop M tokens [] with
  | .error e => .error e
  | .ok [v] => .ok v
  | .ok _ => .error .invalidExpression

/-! ## Conversion to postfix -/

/-- The map `precedence` of `Calc`; a missing key reads as `0`. -/
def precedence (ch : Char) : Nat :=
  if ch = '+' then 1
  else if ch = '-' then 1
  else if ch = '*' then 2
  else if ch = '/' then 2
  else 0

/-- The test `(ch >= '0' && ch <= '9') || ch == '.'`. -/
def isNumChar (ch : Char) : Bool :=
  (decide ('0' ≤ ch) && decide (ch ≤ '9')) || decide (ch = '.')

/-- Flushing the number buffer: `if numberBuffer.Len() > 0 { output = append(...) }`. -/
def flushBuffer (output : List String) (numberBuffer : List Char) : List String :=
  if numberBuffer ≠ [] then output ++ [String.mk numberBuffer] else output

/-- The loop run at `)`: pop operators to the output while the top is not `(`. -/
def popToParen : List Char → List String → List Char × List String
  | [], output => ([], output)
  | top :: operators, output =>
    if top ≠ '(' then popToParen operators (output ++ [String.singleton top])
    else (top :: operators, output)

/-- The loop run at an operator of precedence `p`: pop while the top has
precedence at least `p`. -/
def popWhilePrec (p : Nat) : List Char → List String → List Char × List String
  | [], output => ([], output)
  | top :: operators, output =>
    if precedence top ≥ p then popWhilePrec p operators (output ++ [String.singleton top])
    else (top :: operators, output)

/-- The final loop of the conversion: pop everything, failing at a `(`. -/
def drain : List Char → List String → Except CalcError (List String)
  | [], output => .ok output
  | top :: operators, output =>
    if top = '(' then .error .mismatchedParentheses
    else drain operators (output ++ [String.singleton top])

/-- The `range` loop of `Calc` over the remaining runes, from the state
`(output, operators, numberBuffer)`. -/
def scan : List Char → List String → List Char → List Char →
    Except CalcError (List String × List Char × List Char)
  | [], output, operators, numberBuffer => .ok (output, operators, numberBuffer)
  | ch :: rest, output, operators, numberBuffer =>
    if isNumChar ch then scan rest output operators (numberBuffer ++ [ch])
    else
      if ch = '(' then scan rest (flushBuffer output numberBuffer) (ch :: operators) []
      else if ch = ')' then
        match popToParen operators (flushBuffer output numberBuffer) with
        | ([], _) => .error .mismatchedParentheses
        | (_ :: operators', output') => scan rest output' operators' []
      else if precedence ch > 0 then
        scan rest (popWhilePrec (precedence ch) operators (flushBuffer output numberBuffer)).2
          (ch :: (popWhilePrec (precedence ch) operators (flushBuffer output numberBuffer)).1) []
      else .error (.invalidCharacter ch)

/-- The conversion part of `Calc` (lines 64-108) on the space-free expression:
the postfix sequence handed to `evaluatePostfix`. -/
def toPostfix (expression : List Char) : Except CalcError (List String) :=
  match scan expression [] [] [] with
  | .error e => .error e
  | .ok (output, operators, numberBuffer) => drain operators (flushBuffer output numberBuffer)

/-- The effect of `strings.ReplaceAll(expression, " ", "")`. -/
def stripSpaces (expression : String) : List Char :=
  expression.data.filter (fun ch => ch ≠ ' ')

/-- Source `Calc`. -/
def Calc {F : Type} (M : FloatOps F) (expression : String) : Except CalcError F :=
  if stripSpaces expression = [] then .error .emptyExpression
  else
    match toPostfix (stripSpaces expression) with
    | .error e => .error e
    | .ok output => evaluatePostfix M output

/-! ## An exact decimal instance -/

/-- The value of a string of decimal digits, most significant first. -/
def digitsValue : List Char → Nat → Nat
  | [], acc => acc
  | ch :: rest, acc => digitsValue rest (10 * acc + (ch.toNat - '0'.toNat))

/-- The test `ch >= '0' && ch <= '9'`. -/
def isDigitChar (ch : Char) : Bool :=
  decide ('0' ≤ ch) && decide (ch ≤ '9')

/-- The greatest decimal value `strconv.ParseFloat(·, 64)` accepts lies below
`2^1024 - 2^970 = 2^970 * (2^54 - 1)`; from there on the result rounds to
infinity and the call returns a range error. -/
def float64Limit : Nat := (2 ^ 194) ^ 5 * (2 ^ 54 - 1)

/-- `strconv.ParseFloat` on plain unsigned decimal literals (digits with at most
one `.` and at least one digit), the only number tokens `Calc` can build; the
value is kept exact. Any other text is a syntax error here. -/
def parseDecimal (token : String) : Except String ℚ :=
  let intPart := token.data.takeWhile (fun ch => ch ≠ '.')
  let fracPart := (token.data.dropWhile (fun ch => ch ≠ '.')).tail
  if intPart.all isDigitChar && fracPart.all isDigitChar && (intPart ++ fracPart ≠ []) then
    if digitsValue (intPart ++ fracPart) 0 < float64Limit * 10 ^ fracPart.length then
      .ok (mkRat (digitsValue (intPart ++ fracPart) 0) (10 ^ fracPart.length))
    else .error ("strconv.ParseFloat: parsing \"" ++ token ++ "\": value out of range")
  else .error ("strconv.ParseFloat: parsing \"" ++ token ++ "\": invalid syntax")

/-- Exact rational arithmetic with `parseDecimal`: it agrees with `float64`
wherever every value involved is exactly representable. -/
def decOps : FloatOps ℚ where
  parseFloat := parseDecimal
  add := fun a b => a + b
  sub := fun a b => a - b
  mul := fun a b => a * b
  div := fun a b => a / b
  isZero := fun b => decide (b = 0)
  parseFloat_operator := by
    intro ch h
    rcases h with h | h | h | h <;> subst h <;> exact ⟨_, rfl⟩

/-! ## Infix expressions: the reference semantics -/

/-- The four binary operators. -/
inductive Op where
  | plus
  | minus
  | times
  | divide
  deriving DecidableEq

/-- The character of an operator. -/
def Op.char : Op → Char
  | .plus => '+'
  | .minus => '-'
  | .times => '*'
  | .divide => '/'

/-- The postfix token of an operator, `string(ch)`. -/
def Op.token (op : Op) : String := String.singleton op.char

/-- Precedence class of an operator, read from the table of `Calc`. -/
def Op.prec (op : Op) : Nat := precedence op.char

/-- The arithmetic of an operator on a left and a right operand; a division
whose right operand is zero has no value. -/
def Op.apply {F : Type} (M : FloatOps F) : Op → F → F → Option F
  | .plus, a, b => some (M.add a b)
  | .minus, a, b => some (M.sub a b)
  | .times, a, b => some (M.mul a b)
  | .divide, a, b => if M.isZero b then none else some (M.div a b)

/-- Parse trees of the grammar `E ::= literal | E op E | '(' E ')'`. -/
inductive Expr where
  | lit (text : List Char)
  | paren (e : Expr)
  | bin (op : Op) (l r : Expr)

/-- The binding strength of the root of a tree: that of its operator, and `3`
(above every operator) for a literal or a parenthesised expression. -/
def Expr.level : Expr → Nat
  | .lit _ => 3
  | .paren _ => 3
  | .bin op _ _ => op.prec

/-- The tree is the one standard precedence and left-associativity give to its
text: a left operand binds at least as tightly as the operator over it, a right
operand strictly tighter; a literal is a non-empty run of digits and `.`. -/
def Expr.WellFormed : Expr → Prop
  | .lit text => text ≠ [] ∧ ∀ ch ∈ text, isNumChar ch = true
  | .paren e => e.WellFormed
  | .bin op l r => l.WellFormed ∧ r.WellFormed ∧ op.prec ≤ l.level ∧ op.prec < r.level

/-- The text of a tree, without spaces. -/
def Expr.render : Expr → List Char
  | .lit text => text
  | .paren e => '(' :: (e.render ++ [')'])
  | .bin op l r => l.render ++ op.char :: r.render

/-- The value of a tree: literals are parsed, operators applied to the values of
their operands. It is defined exactly when every literal parses and no division
has a zero right operand. -/
def Expr.eval {F : Type} (M : FloatOps F) : Expr → Option F
  | .lit text =>
    match M.parseFloat (String.mk text) with
    | .ok v => some v
    | .error _ => none
  | .paren e => e.eval M
  | .bin op l r =>
    match l.eval M, r.eval M with
    | some a, some b => op.apply M a b
    | _, _ => none

/-- The postfix form of a tree. -/
def Expr.postfixForm : Expr → List String
  | .lit text => [String.mk text]
  | .paren e => e.postfixForm
  | .bin op l r => l.postfixForm ++ r.postfixForm ++ [op.token]

/-- Every literal of the tree parses as a number. -/
def Expr.LiteralsParse {F : Type} (M : FloatOps F) : Expr → Prop
  | .lit text => ∃ v, M.parseFloat (String.mk text) = .ok v
  | .paren e => e.LiteralsParse M
  | .bin _ l r => l.LiteralsParse M ∧ r.LiteralsParse M

/-- No division of the tree has a right operand whose value is zero. -/
def Expr.NoZeroDivisor {F : Type} (M : FloatOps F) : Expr → Prop
  | .lit _ => True
  | .paren e => e.NoZeroDivisor M
  | .bin op l r => l.NoZeroDivisor M ∧ r.NoZeroDivisor M ∧
      (op = .divide → ∀ b, r.eval M = some b → M.isZero b = false)

/-- The value `a op b` in the arithmetic of the source. -/
def Op.value {F : Type} (M : FloatOps F) : Op → F → F → F
  | .plus, a, b => M.add a b
  | .minus, a, b => M.sub a b
  | .times, a, b => M.mul a b
  | .divide, a, b => M.div a b

/-- A valid numeric literal of an expression: a non-empty run of digits and `.`
that parses, with value `v`. -/
def IsLiteral {F : Type} (M : FloatOps F) (text : String) (v : F) : Prop :=
  text.data ≠ [] ∧ (∀ ch ∈ text.data, isNumChar ch = true) ∧ M.parseFloat text = .ok v

/-- The parse tree of `2+3*(4-1)/2`. -/
def sampleExpr : Expr :=
  .bin .plus (.lit ['2'])
    (.bin .divide (.bin .times (.lit ['3']) (.paren (.bin .minus (.lit ['4']) (.lit ['1']))))
      (.lit ['2']))

/-- The characters `Calc` accepts: digits, `.`, the four operators, parentheses
and the space. -/
def isValidChar (ch : Char) : Bool :=
  isNumChar ch || decide (ch = '+') || decide (ch = '-') || decide (ch = '*') ||
    decide (ch = '/') || decide (ch = '(') || decide (ch = ')') || decide (ch = ' ')

/-- The parentheses of a text are unbalanced: some prefix holds more `)` than `(`,
or the totals of `(` and `)` differ. -/
def Unbalanced (text : List Char) : Prop :=
  (∃ p, p <+: text ∧ p.count '(' < p.count ')') ∨ text.count '(' ≠ text.count ')'

/-- The token is one of the four operator symbols of the `switch` of
`evaluatePostfix`. -/
def isOperatorToken (token : String) : Bool :=
  decide (token = "+") || decide (token = "-") || decide (token = "*") || decide (token = "/")

/-- The error is of one of the seven kinds built with `errors.New` in the source. -/
def CalcError.IsListedKind (e : CalcError) : Prop :=
  e = .emptyExpression ∨ e = .mismatchedParentheses ∨ (∃ ch, e = .invalidCharacter ch) ∨
    (∃ token, e = .notEnoughOperands token) ∨ e = .divisionByZero ∨
    (∃ token, e = .invalidOperation token) ∨ e = .invalidExpression

/-- The error is one the evaluator raises: not enough operands, division by
zero, invalid operation, invalid expression. -/
def CalcError.IsEvaluatorKind (e : CalcError) : Prop :=
  (∃ token, e = .notEnoughOperands token) ∨ e = .divisionByZero ∨
    (∃ token, e = .invalidOperation token) ∨ e = .invalidExpression

/-- The leftmost operand that an operator `c` written in front of the text of the
tree takes: the tree itself if its root binds tighter than `c`, else the one of
its left operand. -/
def Expr.leftTerm (c : Op) : Expr → Expr
  | .bin op l r => if op.prec ≤ c.prec then l.leftTerm c else .bin op l r
  | .lit text => .lit text
  | .paren e => .paren e

/-- The postfix tokens that follow `c` when `c` is written in front of the text
of the tree: the right operands and operators above the leftmost operand. -/
def Expr.restTokens (c : Op) : Expr → List String
  | .bin op l r =>
    if op.prec ≤ c.prec then l.restTokens c ++ r.postfixForm ++ [op.token] else []
  | .lit _ => []
  | .paren _ => []

/-- The character is one of the four operators. -/
def isOperatorChar (ch : Char) : Bool :=
  decide (ch = '+') || decide (ch = '-') || decide (ch = '*') || decide (ch = '/')

/-- The maximal runs of digits and `.` of a text, in order: the text is split at
every other character and the empty pieces are dropped. -/
def numRuns (text : List Char) : List String :=
  ((text.splitOnP (fun ch => !isNumChar ch)).filter (fun run => decide (run ≠ []))).map
    String.mk

/-- The maximal runs of digits and `.` of `buf ++ text`, for `buf` a run already
read. -/
def runsFrom (buf text : List Char) : List String :=
  (((text.splitOnP (fun ch => !isNumChar ch)).modifyHead (fun run => buf ++ run)).filter
    (fun run => decide (run ≠ []))).map String.mk

/-- Every character on the operator stack is `(` or an operator. -/
def OperatorsOK (operators : List Char) : Prop :=
  ∀ ch ∈ operators, ch = '(' ∨ isOperatorChar ch = true

/-- The number buffer holds digits and `.` only. -/
def BufferOK (buf : List Char) : Prop :=
  ∀ ch ∈ buf, isNumChar ch = true

/-- The tree is built by the grammar `E ::= literal | E op E | '(' E ')'`, with
non-empty runs of digits and `.` as literals; no condition on precedence. -/
def Expr.Grammatical : Expr → Prop
  | .lit text => text ≠ [] ∧ ∀ ch ∈ text, isNumChar ch = true
  | .paren e => e.Grammatical
  | .bin _ l r => l.Grammatical ∧ r.Grammatical

/-! ## The HTTP handler -/

/-- A Go error value as `errors.New` builds it: a pointer to a fresh
`errorString`. `addr` is the identity of the allocation, `text` the message. -/
structure ErrorValue where
  addr : Nat
  text : String

/-- The call `errors.New(text)`, with `next` the next free address: every call
returns a distinct value, even for an identical text. -/
def errorsNew (next : Nat) (text : String) : ErrorValue × Nat :=
  (⟨next, text⟩, next + 1)

/-- The call `errors.Is(err, target)` on values of `errors.New`: `errorString`
has neither an `Is` nor an `Unwrap` method, so the test is the comparison
`err == target` of the two pointers. -/
def errorsIs (err target : ErrorValue) : Bool :=
  decide (err.addr = target.addr)

/-- What `calculateHandler` reads of a request: the method, and the `expression`
field decoded from the body (`none` when decoding fails). -/
structure HttpRequest where
  method : String
  expression : Option String

/-- The status and body `calculateHandler` writes. -/
structure HttpResponse where
  status : Nat
  body : String

/-- Source `calculateHandler`. `formatFloat` is `strconv.FormatFloat(·, 'f', -1, 64)`;
`next` is the next free address when `Calc` allocates its error. -/
def calculateHandler {F : Type} (M : FloatOps F) (formatFloat : F → String) (next : Nat)
    (r : HttpRequest) : HttpResponse :=
  if r.method ≠ "POST" then ⟨405, "Method not allowed\n"⟩
  else
    match r.expression with
    | none => ⟨400, "Invalid request body\n"⟩
    | some expression =>
      match Calc M expression with
      | .error e =>
        if errorsIs (errorsNew next e.message).1
            (errorsNew (errorsNew next e.message).2 "empty expression").1 then
          ⟨422, "\x7b\"error\": \"Expression is not valid\"\x7d\n"⟩
        else ⟨500, "\x7b\"error\": \"Internal server error\"\x7d\n"⟩
      | .ok result => ⟨200, "\x7b\"result\":\"" ++ formatFloat result ++ "\"\x7d\n"⟩

/-- The top of the operator stack, if it is an operator, binds less tightly than `p`. -/
def LowTop (p : Nat) (operators : List Char) : Prop :=
  ∀ top ∈ operators.head?, precedence top < p

/-! ## Lemmas on the conversion loops -/

theorem Op.prec_pos (op : Op) : 0 < op.prec := by
  cases op <;> decide

theorem Op.prec_le_two (op : Op) : op.prec ≤ 2 := by
  cases op <;> decide

theorem Op.isNumChar_char (op : Op) : isNumChar op.char = false := by
  cases op <;> decide

theorem Op.char_ne_open (op : Op) : op.char ≠ '(' := by
  cases op <;> decide

theorem Op.char_ne_close (op : Op) : op.char ≠ ')' := by
  cases op <;> decide

theorem Expr.level_pos (e : Expr) : 0 < e.level := by
  cases e with
  | lit _ => simp [Expr.level]
  | paren _ => simp [Expr.level]
  | bin op _ _ => exact op.prec_pos

theorem precedence_le_two (ch : Char) : precedence ch ≤ 2 := by
  unfold precedence
  split_ifs <;> omega

theorem flushBuffer_nil (output : List String) : flushBuffer output [] = output := by
  simp [flushBuffer]

theorem flushBuffer_of_ne_nil (output : List String) {buf : List Char} (h : buf ≠ []) :
    flushBuffer output buf = output ++ [String.mk buf] := by
  simp [flushBuffer, h]

theorem scan_numChars (text : List Char) (h : ∀ ch ∈ text, isNumChar ch = true)
    (rest : List Char) (output : List String) (operators buf : List Char) :
    scan (text ++ rest) output operators buf = scan rest output operators (buf ++ text) := by
  induction text generalizing buf with
  | nil => simp
  | cons ch text ih =>
    have hch : isNumChar ch = true := h ch (List.mem_cons_self _ _)
    have ht : ∀ c ∈ text, isNumChar c = true := fun c hc => h c (List.mem_cons_of_mem _ hc)
    simp [scan, hch, ih ht]

theorem popWhilePrec_append (p : Nat) (pend : List Char) (h : ∀ ch ∈ pend, p ≤ precedence ch)
    (operators : List Char) (output : List String) :
    popWhilePrec p (pend ++ operators) output
      = popWhilePrec p operators (output ++ pend.map String.singleton) := by
  induction pend generalizing output with
  | nil => simp
  | cons ch pend ih =>
    have hch : p ≤ precedence ch := h ch (List.mem_cons_self _ _)
    have ht : ∀ c ∈ pend, p ≤ precedence c := fun c hc => h c (List.mem_cons_of_mem _ hc)
    simp [popWhilePrec, hch, ih ht]

theorem popWhilePrec_lowTop (p : Nat) (operators : List Char) (h : LowTop p operators)
    (output : List String) : popWhilePrec p operators output = (operators, output) := by
  cases operators with
  | nil => rfl
  | cons top operators =>
    have : precedence top < p := h top (by simp)
    simp [popWhilePrec, this]

theorem popToParen_append (pend : List Char) (h : ∀ ch ∈ pend, ch ≠ '(')
    (operators : List Char) (output : List String) :
    popToParen (pend ++ operators) output
      = popToParen operators (output ++ pend.map String.singleton) := by
  induction pend generalizing output with
  | nil => simp
  | cons ch pend ih =>
    have hch : ch ≠ '(' := h ch (List.mem_cons_self _ _)
    have ht : ∀ c ∈ pend, c ≠ '(' := fun c hc => h c (List.mem_cons_of_mem _ hc)
    simp [popToParen, hch, ih ht]

theorem drain_operators (pend : List Char) (h : ∀ ch ∈ pend, ch ≠ '(')
    (output : List String) :
    drain pend output = .ok (output ++ pend.map String.singleton) := by
  induction pend generalizing output with
  | nil => simp [drain]
  | cons ch pend ih =>
    have hch : ch ≠ '(' := h ch (List.mem_cons_self _ _)
    have ht : ∀ c ∈ pend, c ≠ '(' := fun c hc => h c (List.mem_cons_of_mem _ hc)
    simp [drain, hch, ih ht]

theorem ne_open_of_precedence_pos {ch : Char} (h : 0 < precedence ch) : ch ≠ '(' := by
  intro hc
  subst hc
  exact absurd h (by decide)

theorem scan_operator (op : Op) (rest : List Char) (output : List String)
    (operators buf : List Char) :
    scan (op.char :: rest) output operators buf
      = scan rest (popWhilePrec op.prec operators (flushBuffer output buf)).2
          (op.char :: (popWhilePrec op.prec operators (flushBuffer output buf)).1) [] := by
  have h1 := op.isNumChar_char
  have h2 := op.char_ne_open
  have h3 := op.char_ne_close
  have h4 : 0 < precedence op.char := op.prec_pos
  simp [scan, h1, h2, h3, h4, Op.prec]

theorem scan_open (rest : List Char) (output : List String) (operators buf : List Char) :
    scan ('(' :: rest) output operators buf
      = scan rest (flushBuffer output buf) ('(' :: operators) [] := by
  have h1 : isNumChar '(' = false := by decide
  simp [scan, h1]

theorem scan_close (rest : List Char) (output : List String) (operators buf : List Char) :
    scan (')' :: rest) output operators buf
      = match popToParen operators (flushBuffer output buf) with
        | ([], _) => .error .mismatchedParentheses
        | (_ :: operators', output') => scan rest output' operators' [] := by
  have h1 : isNumChar ')' = false := by decide
  have h2 : ')' ≠ '(' := by decide
  simp [scan, h1, h2]

/-- Scanning the text of a well-formed tree: the output gains the postfix form of
the tree, except for a tail of operators still pending on the stack, all of them
binding at least as tightly as the root. -/
theorem scan_render (e : Expr) (hwf : e.WellFormed) :
    ∀ (output : List String) (operators : List Char), LowTop e.level operators →
      ∃ (output' : List String) (pend buf : List Char),
        (∀ rest, scan (e.render ++ rest) output operators []
            = scan rest output' (pend ++ operators) buf) ∧
        (∀ ch ∈ pend, e.level ≤ precedence ch) ∧
        flushBuffer output' buf ++ pend.map String.singleton = output ++ e.postfixForm := by
  induction e with
  | lit text =>
    intro output operators _
    obtain ⟨hne, hall⟩ := hwf
    refine ⟨output, [], text, ?_, ?_, ?_⟩
    · intro rest
      simpa [Expr.render] using scan_numChars text hall rest output operators []
    · simp
    · simp [flushBuffer_of_ne_nil output hne, Expr.postfixForm]
  | paren e ih =>
    intro output operators _
    have hlow : LowTop e.level ('(' :: operators) := by
      intro top htop
      simp at htop
      subst htop
      exact e.level_pos
    obtain ⟨output', pend, buf, hscan, hpend, hout⟩ := ih hwf output ('(' :: operators) hlow
    refine ⟨output ++ e.postfixForm, [], [], ?_, ?_, ?_⟩
    · intro rest
      have hno : ∀ ch ∈ pend, ch ≠ '(' := fun ch hch =>
        ne_open_of_precedence_pos (lt_of_lt_of_le e.level_pos (hpend ch hch))
      have hpop : popToParen (pend ++ '(' :: operators) (flushBuffer output' buf)
          = ('(' :: operators, output ++ e.postfixForm) := by
        rw [popToParen_append pend hno, hout]
        simp [popToParen]
      simp only [Expr.render, List.cons_append, List.append_assoc, List.nil_append]
      rw [scan_open, flushBuffer_nil, hscan, scan_close, hpop]
    · simp
    · simp [flushBuffer_nil, Expr.postfixForm]
  | bin op l r ihl ihr =>
    intro output operators hlow
    obtain ⟨hwl, hwr, hl, hr⟩ := hwf
    have hlow' : LowTop op.prec operators := hlow
    have hlowl : LowTop l.level operators := fun top htop => lt_of_lt_of_le (hlow' top htop) hl
    obtain ⟨o1, pend1, buf1, hscan1, hpend1, hout1⟩ := ihl hwl output operators hlowl
    have hlowr : LowTop r.level (op.char :: operators) := by
      intro top htop
      simp at htop
      subst htop
      exact hr
    obtain ⟨o2, pend2, buf2, hscan2, hpend2, hout2⟩ :=
      ihr hwr (output ++ l.postfixForm) (op.char :: operators) hlowr
    have hpop : popWhilePrec op.prec (pend1 ++ operators) (flushBuffer o1 buf1)
        = (operators, output ++ l.postfixForm) := by
      rw [popWhilePrec_append op.prec pend1 (fun ch hch => le_trans hl (hpend1 ch hch)), hout1]
      exact popWhilePrec_lowTop op.prec operators hlow' _
    refine ⟨o2, pend2 ++ [op.char], buf2, ?_, ?_, ?_⟩
    · intro rest
      simp only [Expr.render, List.append_assoc, List.cons_append]
      rw [hscan1, scan_operator, hpop]
      simp only []
      rw [hscan2]
      simp
    · intro ch hch
      rcases List.mem_append.mp hch with h | h
      · exact le_of_lt (lt_of_lt_of_le hr (hpend2 ch h))
      · simp at h
        subst h
        exact le_refl _
    · simp only [List.map_append, List.map_cons, List.map_nil, Expr.postfixForm]
      rw [← List.append_assoc, hout2]
      simp [Op.token]

theorem Expr.render_ne_nil (e : Expr) (hwf : e.WellFormed) : e.render ≠ [] := by
  induction e with
  | lit text => exact hwf.1
  | paren e _ => simp [Expr.render]
  | bin op l r _ _ => simp [Expr.render]

/-- The conversion of the text of a well-formed tree is its postfix form. -/
theorem toPostfix_render (e : Expr) (hwf : e.WellFormed) :
    toPostfix e.render = .ok e.postfixForm := by
  obtain ⟨output', pend, buf, hscan, hpend, hout⟩ :=
    scan_render e hwf [] [] (by intro top htop; simp at htop)
  have hs := hscan []
  simp only [List.append_nil] at hs
  have hno : ∀ ch ∈ pend, ch ≠ '(' := fun ch hch =>
    ne_open_of_precedence_pos (lt_of_lt_of_le e.level_pos (hpend ch hch))
  unfold toPostfix
  rw [hs]
  simp only [scan]
  rw [drain_operators pend hno, hout]
  simp

/-! ## Lemmas on the evaluation loop -/

theorem isNumber_operator {F : Type} (M : FloatOps F) (op : Op) :
    isNumber M op.token = false := by
  obtain ⟨msg, h⟩ := M.parseFloat_operator op.char (by cases op <;> simp [Op.char])
  simp [isNumber, Op.token, h]

theorem evalStep_number {F : Type} (M : FloatOps F) (token : String) (v : F)
    (h : M.parseFloat token = .ok v) (stack : List F) :
    evalStep M token stack = .ok (v :: stack) := by
  simp [evalStep, isNumber, h]

theorem evalStep_operator {F : Type} (M : FloatOps F) (op : Op) (a b : F) (stack : List F) :
    evalStep M op.token (b :: a :: stack)
      = match op.apply M a b with
        | some v => .ok (v :: stack)
        | none => .error .divisionByZero := by
  have h := isNumber_operator M op
  cases op
  · have ht : Op.plus.token = "+" := by decide
    rw [ht] at h ⊢
    simp [evalStep, h, Op.apply]
  · have ht : Op.minus.token = "-" := by decide
    rw [ht] at h ⊢
    simp [evalStep, h, Op.apply]
  · have ht : Op.times.token = "*" := by decide
    rw [ht] at h ⊢
    simp [evalStep, h, Op.apply]
  · have ht : Op.divide.token = "/" := by decide
    rw [ht] at h ⊢
    cases hz : M.isZero b <;> simp [evalStep, h, Op.apply, hz]

theorem evalLoop_cons {F : Type} (M : FloatOps F) (token : String) (rest : List String)
    (stack stack' : List F) (h : evalStep M token stack = .ok stack') :
    evalLoop M (token :: rest) stack = evalLoop M rest stack' := by
  simp [evalLoop, h]

theorem evalLoop_append {F : Type} (M : FloatOps F) (pre rest : List String)
    (stack stack' : List F) (h : evalLoop M pre stack = .ok stack') :
    evalLoop M (pre ++ rest) stack = evalLoop M rest stack' := by
  induction pre generalizing stack with
  | nil =>
    simp [evalLoop] at h
    subst h
    rfl
  | cons token pre ih =>
    cases hstep : evalStep M token stack with
    | error e => simp [evalLoop, hstep] at h
    | ok s1 =>
      simp only [evalLoop, hstep] at h
      simp only [List.cons_append, evalLoop, hstep]
      exact ih s1 h

/-- Evaluating the postfix form of a tree pushes the value of the tree. -/
theorem evalLoop_postfixForm {F : Type} (M : FloatOps F) (e : Expr) :
    ∀ (v : F), e.eval M = some v → ∀ (stack : List F),
      evalLoop M e.postfixForm stack = .ok (v :: stack) := by
  induction e with
  | lit text =>
    intro v hv stack
    cases hp : M.parseFloat (String.mk text) with
    | error msg => simp [Expr.eval, hp] at hv
    | ok w =>
      simp [Expr.eval, hp] at hv
      subst hv
      simp [Expr.postfixForm, evalLoop, evalStep_number M _ w hp]
  | paren e ih =>
    intro v hv stack
    exact ih v hv stack
  | bin op l r ihl ihr =>
    intro v hv stack
    cases hl : l.eval M with
    | none => simp [Expr.eval, hl] at hv
    | some a =>
      cases hr : r.eval M with
      | none => simp [Expr.eval, hl, hr] at hv
      | some b =>
        simp only [Expr.eval, hl, hr] at hv
        have h1 := ihl a hl stack
        have h2 := ihr b hr (a :: stack)
        have h3 : evalStep M op.token (b :: a :: stack) = .ok (v :: stack) := by
          rw [evalStep_operator, hv]
        simp only [Expr.postfixForm, List.append_assoc]
        rw [evalLoop_append M _ _ _ _ h1, evalLoop_append M _ _ _ _ h2,
          evalLoop_cons M _ _ _ _ h3]
        rfl

theorem evaluatePostfix_postfixForm {F : Type} (M : FloatOps F) (e : Expr) (v : F)
    (hv : e.eval M = some v) : evaluatePostfix M e.postfixForm = .ok v := by
  simp [evaluatePostfix, evalLoop_postfixForm M e v hv []]

theorem Expr.eval_defined {F : Type} (M : FloatOps F) (e : Expr)
    (hp : e.LiteralsParse M) (hz : e.NoZeroDivisor M) : ∃ v, e.eval M = some v := by
  induction e with
  | lit text =>
    obtain ⟨v, hv⟩ := hp
    exact ⟨v, by simp [Expr.eval, hv]⟩
  | paren e ih => exact ih hp hz
  | bin op l r ihl ihr =>
    obtain ⟨a, ha⟩ := ihl hp.1 hz.1
    obtain ⟨b, hb⟩ := ihr hp.2 hz.2.1
    cases op with
    | plus => exact ⟨M.add a b, by simp [Expr.eval, ha, hb, Op.apply]⟩
    | minus => exact ⟨M.sub a b, by simp [Expr.eval, ha, hb, Op.apply]⟩
    | times => exact ⟨M.mul a b, by simp [Expr.eval, ha, hb, Op.apply]⟩
    | divide =>
      have hb0 : M.isZero b = false := hz.2.2 rfl b hb
      exact ⟨M.div a b, by simp [Expr.eval, ha, hb, Op.apply, hb0]⟩

/-- `Calc` on a text whose space-free form is the text of a well-formed tree:
the postfix sequence is that of the tree and the result is its value. -/
theorem Calc_of_render {F : Type} (M : FloatOps F) (e : Expr) (s : String) (v : F)
    (hwf : e.WellFormed) (hs : stripSpaces s = e.render) (hv : e.eval M = some v) :
    toPostfix (stripSpaces s) = .ok e.postfixForm ∧ Calc M s = .ok v := by
  have hpost := toPostfix_render e hwf
  refine ⟨by rw [hs, hpost], ?_⟩
  unfold Calc
  rw [hs, hpost]
  simp [e.render_ne_nil hwf, evaluatePostfix_postfixForm M e v hv]

theorem isNumChar_ne_space {ch : Char} (h : isNumChar ch = true) : ch ≠ ' ' := by
  intro hc
  subst hc
  exact absurd h (by decide)

theorem Expr.render_no_space (e : Expr) (hwf : e.WellFormed) : ∀ ch ∈ e.render, ch ≠ ' ' := by
  induction e with
  | lit text => exact fun ch hch => isNumChar_ne_space (hwf.2 ch hch)
  | paren e ih =>
    intro ch hch
    simp only [Expr.render, List.mem_cons, List.mem_append, List.mem_singleton] at hch
    rcases hch with h | h | h
    · subst h; decide
    · exact ih hwf ch h
    · rcases h with h | h
      · subst h; decide
      · simp at h
  | bin op l r ihl ihr =>
    intro ch hch
    simp only [Expr.render, List.mem_cons, List.mem_append] at hch
    rcases hch with h | h | h
    · exact ihl hwf.1 ch h
    · subst h; cases op <;> decide
    · exact ihr hwf.2.1 ch h

theorem stripSpaces_of_render (e : Expr) (hwf : e.WellFormed) (s : String)
    (hs : s.data = e.render) : stripSpaces s = e.render := by
  unfold stripSpaces
  rw [hs, List.filter_eq_self]
  intro ch hch
  simpa using e.render_no_space hwf ch hch

theorem Op.apply_eq_value {F : Type} (M : FloatOps F) (op : Op) (a b : F)
    (h : op = .divide → M.isZero b = false) : op.apply M a b = some (op.value M a b) := by
  cases op with
  | plus => rfl
  | minus => rfl
  | times => rfl
  | divide => simp [Op.apply, Op.value, h rfl]

theorem IsLiteral.wellFormed {F : Type} {M : FloatOps F} {text : String} {v : F}
    (h : IsLiteral M text v) : (Expr.lit text.data).WellFormed :=
  ⟨h.1, h.2.1⟩

theorem IsLiteral.eval {F : Type} {M : FloatOps F} {text : String} {v : F}
    (h : IsLiteral M text v) : (Expr.lit text.data).eval M = some v := by
  have hp : M.parseFloat (String.mk text.data) = .ok v := h.2.2
  simp [Expr.eval, hp]

theorem Expr.eval_bin {F : Type} (M : FloatOps F) (op : Op) (l r : Expr) (a b : F)
    (hl : l.eval M = some a) (hr : r.eval M = some b) :
    (Expr.bin op l r).eval M = op.apply M a b := by
  simp [Expr.eval, hl, hr]

theorem Expr.eval_bin_value {F : Type} (M : FloatOps F) (op : Op) (l r : Expr) (a b : F)
    (hl : l.eval M = some a) (hr : r.eval M = some b)
    (h : op = .divide → M.isZero b = false) :
    (Expr.bin op l r).eval M = some (op.value M a b) := by
  rw [Expr.eval_bin M op l r a b hl hr, Op.apply_eq_value M op a b h]

theorem Op.prec_lt_level_lit (op : Op) (text : List Char) : op.prec < (Expr.lit text).level :=
  lt_of_le_of_lt op.prec_le_two (by simp [Expr.level])

theorem Op.prec_lt_level_paren (op : Op) (e : Expr) : op.prec < (Expr.paren e).level :=
  lt_of_le_of_lt op.prec_le_two (by simp [Expr.level])

theorem stripSpaces_eq_self (s : String) (h : ∀ ch ∈ s.data, ch ≠ ' ') :
    stripSpaces s = s.data := by
  unfold stripSpaces
  rw [List.filter_eq_self]
  intro ch hch
  simpa using h ch hch

theorem Op.char_ne_space (op : Op) : op.char ≠ ' ' := by
  cases op <;> decide

theorem toPostfix_trailing_operator (text : List Char) (hne : text ≠ [])
    (hall : ∀ ch ∈ text, isNumChar ch = true) (op : Op) :
    toPostfix (text ++ [op.char]) = .ok [String.mk text, op.token] := by
  unfold toPostfix
  rw [scan_numChars text hall, scan_operator]
  simp [popWhilePrec, scan, flushBuffer, hne, drain, op.char_ne_open, Op.token]

theorem evalStep_operator_short {F : Type} (M : FloatOps F) (op : Op) (x : F) :
    evalStep M op.token [x] = .error (.notEnoughOperands op.token) := by
  simp [evalStep, isNumber_operator M op]

theorem evalStep_divide_zero {F : Type} (M : FloatOps F) (a b : F) (stack : List F)
    (hb : M.isZero b = true) :
    evalStep M "/" (b :: a :: stack) = .error .divisionByZero := by
  have h := evalStep_operator M .divide a b stack
  have ht : Op.divide.token = "/" := by decide
  rw [ht] at h
  simp [h, Op.apply, hb]

/-! ## Parenthesis balance -/

theorem validChar_cases {ch : Char} (h : isValidChar ch = true) (hsp : ch ≠ ' ') :
    isNumChar ch = true ∨ ch = '(' ∨ ch = ')' ∨ ∃ op : Op, ch = op.char := by
  simp only [isValidChar, Bool.or_eq_true, decide_eq_true_eq] at h
  rcases h with ((((((h | h) | h) | h) | h) | h) | h) | h
  · exact Or.inl h
  · exact Or.inr (Or.inr (Or.inr ⟨.plus, h⟩))
  · exact Or.inr (Or.inr (Or.inr ⟨.minus, h⟩))
  · exact Or.inr (Or.inr (Or.inr ⟨.times, h⟩))
  · exact Or.inr (Or.inr (Or.inr ⟨.divide, h⟩))
  · exact Or.inr (Or.inl h)
  · exact Or.inr (Or.inr (Or.inl h))
  · exact absurd h hsp

theorem isNumChar_ne_open {ch : Char} (h : isNumChar ch = true) : ch ≠ '(' := by
  intro hc
  subst hc
  exact absurd h (by decide)

theorem isNumChar_ne_close {ch : Char} (h : isNumChar ch = true) : ch ≠ ')' := by
  intro hc
  subst hc
  exact absurd h (by decide)

theorem scan_numChar (ch : Char) (h : isNumChar ch = true) (rest : List Char)
    (output : List String) (operators buf : List Char) :
    scan (ch :: rest) output operators buf = scan rest output operators (buf ++ [ch]) := by
  simp [scan, h]

theorem popToParen_count (operators : List Char) (output : List String) :
    ((popToParen operators output).1 = [] ∧ operators.count '(' = 0) ∨
      ∃ below, (popToParen operators output).1 = '(' :: below ∧
        below.count '(' + 1 = operators.count '(' := by
  induction operators generalizing output with
  | nil => exact Or.inl ⟨rfl, rfl⟩
  | cons top operators ih =>
    by_cases htop : top = '('
    · subst htop
      exact Or.inr ⟨operators, by simp [popToParen], by simp⟩
    · have hne : '(' ≠ top := fun h => htop h.symm
      simp only [popToParen, ne_eq, htop, not_false_eq_true, if_true,
        List.count_cons_of_ne hne]
      exact ih _

theorem popWhilePrec_count (p : Nat) (hp : 0 < p) (operators : List Char)
    (output : List String) :
    (popWhilePrec p operators output).1.count '(' = operators.count '(' := by
  induction operators generalizing output with
  | nil => rfl
  | cons top operators ih =>
    by_cases htop : precedence top ≥ p
    · have hne : '(' ≠ top := fun h =>
        ne_open_of_precedence_pos (lt_of_lt_of_le hp htop) h.symm
      simp only [popWhilePrec, htop, if_true, List.count_cons_of_ne hne]
      exact ih _
    · simp [popWhilePrec, htop]

theorem drain_count (operators : List Char) (output : List String) :
    (∀ e, drain operators output = .error e →
        e = .mismatchedParentheses ∧ 0 < operators.count '(') ∧
      (∀ out, drain operators output = .ok out → operators.count '(' = 0) := by
  induction operators generalizing output with
  | nil => simp [drain]
  | cons top operators ih =>
    by_cases htop : top = '('
    · subst htop
      simp [drain]
    · have hne : '(' ≠ top := fun h => htop h.symm
      simp only [drain, htop, if_false, List.count_cons_of_ne hne]
      exact ih _

/-- Bookkeeping of one rune in the balance argument: `a` and `b` say whether the
rune is `(` or `)`, `d` and `d1` are the numbers of `(` on the stack before and
after it. -/
theorem balance_step (ch : Char) (rest : List Char) (a b d d1 : Nat)
    (ha : ∀ l : List Char, (ch :: l).count '(' = l.count '(' + a)
    (hb : ∀ l : List Char, (ch :: l).count ')' = l.count ')' + b)
    (hd : d1 + b = d + a) :
    ((∃ p, p <+: rest ∧ d1 + p.count '(' < p.count ')') →
        ∃ p, p <+: ch :: rest ∧ d + p.count '(' < p.count ')') ∧
      ((∀ p, p <+: rest → p.count ')' ≤ d1 + p.count '(') →
        ∀ p, p <+: ch :: rest → p.count ')' ≤ d + p.count '(') ∧
      (∀ n, n + rest.count ')' = d1 + rest.count '(' →
        n + (ch :: rest).count ')' = d + (ch :: rest).count '(') := by
  refine ⟨?_, ?_, ?_⟩
  · rintro ⟨p, hp, hlt⟩
    refine ⟨ch :: p, List.cons_prefix_cons.2 ⟨rfl, hp⟩, ?_⟩
    rw [ha, hb]
    omega
  · intro h p hp
    rcases List.prefix_cons_iff.1 hp with rfl | ⟨t, rfl, ht⟩
    · simp
    · have := h t ht
      rw [ha, hb]
      omega
  · intro n hn
    rw [ha, hb]
    omega

/-- On the valid alphabet the scan can only fail with "mismatched parentheses",
and it does so exactly when some prefix closes more parentheses than are open;
when it succeeds, the `(` left on the stack are the unclosed ones. -/
theorem scan_balance (cs : List Char)
    (hvalid : ∀ ch ∈ cs, isValidChar ch = true ∧ ch ≠ ' ') :
    ∀ (output : List String) (operators buf : List Char),
      (∀ e, scan cs output operators buf = .error e →
        e = .mismatchedParentheses ∧
          ∃ p, p <+: cs ∧ operators.count '(' + p.count '(' < p.count ')') ∧
      (∀ r, scan cs output operators buf = .ok r →
        (∀ p, p <+: cs → p.count ')' ≤ operators.count '(' + p.count '(') ∧
          r.2.1.count '(' + cs.count ')' = operators.count '(' + cs.count '(') := by
  induction cs with
  | nil =>
    intro output operators buf
    refine ⟨by simp [scan], ?_⟩
    intro r hr
    simp only [scan, Except.ok.injEq] at hr
    subst hr
    refine ⟨?_, by simp⟩
    intro p hp
    simp at hp
    subst hp
    simp
  | cons ch rest ih =>
    intro output operators buf
    have hrest : ∀ c ∈ rest, isValidChar c = true ∧ c ≠ ' ' :=
      fun c hc => hvalid c (List.mem_cons_of_mem _ hc)
    obtain ⟨hv, hsp⟩ := hvalid ch (List.mem_cons_self _ _)
    rcases validChar_cases hv hsp with hnum | hopen | hclose | ⟨op, hop⟩
    · -- a digit or `.`
      have hno : '(' ≠ ch := fun h => isNumChar_ne_open hnum h.symm
      have hnc : ')' ≠ ch := fun h => isNumChar_ne_close hnum h.symm
      obtain ⟨s1, s2, s3⟩ := balance_step ch rest 0 0 (operators.count '(')
        (operators.count '(') (fun l => by simp [List.count_cons_of_ne hno])
        (fun l => by simp [List.count_cons_of_ne hnc]) rfl
      obtain ⟨ihe, iho⟩ := ih hrest output operators (buf ++ [ch])
      rw [scan_numChar ch hnum]
      exact ⟨fun e he => ⟨(ihe e he).1, s1 (ihe e he).2⟩,
        fun r hr => ⟨s2 (iho r hr).1, s3 _ (iho r hr).2⟩⟩
    · -- `(`
      subst hopen
      obtain ⟨s1, s2, s3⟩ := balance_step '(' rest 1 0 (operators.count '(')
        (('(' :: operators).count '(') (fun l => by simp)
        (fun l => by simp) (by simp)
      obtain ⟨ihe, iho⟩ := ih hrest (flushBuffer output buf) ('(' :: operators) []
      rw [scan_open]
      exact ⟨fun e he => ⟨(ihe e he).1, s1 (ihe e he).2⟩,
        fun r hr => ⟨s2 (iho r hr).1, s3 _ (iho r hr).2⟩⟩
    · -- `)`
      subst hclose
      rw [scan_close]
      rcases popToParen_count operators (flushBuffer output buf) with
        ⟨hnil, hzero⟩ | ⟨below, hcons, hcount⟩
      · cases hpop : popToParen operators (flushBuffer output buf) with
        | mk stack out1 =>
          rw [hpop] at hnil
          simp only at hnil
          subst hnil
          refine ⟨?_, by simp⟩
          intro e he
          simp only [Except.error.injEq] at he
          refine ⟨he.symm, [')'], by simp, ?_⟩
          simp [hzero]
      · cases hpop : popToParen operators (flushBuffer output buf) with
        | mk stack out1 =>
          rw [hpop] at hcons
          simp only at hcons
          subst hcons
          obtain ⟨s1, s2, s3⟩ := balance_step ')' rest 0 1 (operators.count '(')
            (below.count '(') (fun l => by simp) (fun l => by simp) hcount
          obtain ⟨ihe, iho⟩ := ih hrest out1 below []
          exact ⟨fun e he => ⟨(ihe e he).1, s1 (ihe e he).2⟩,
            fun r hr => ⟨s2 (iho r hr).1, s3 _ (iho r hr).2⟩⟩
    · -- an operator
      subst hop
      have hno : '(' ≠ op.char := fun h => op.char_ne_open h.symm
      have hnc : ')' ≠ op.char := fun h => op.char_ne_close h.symm
      have hcount : (op.char :: (popWhilePrec op.prec operators
          (flushBuffer output buf)).1).count '(' = operators.count '(' := by
        rw [List.count_cons_of_ne hno, popWhilePrec_count op.prec op.prec_pos]
      obtain ⟨s1, s2, s3⟩ := balance_step op.char rest 0 0 (operators.count '(')
        ((op.char :: (popWhilePrec op.prec operators
          (flushBuffer output buf)).1).count '(')
        (fun l => by simp [List.count_cons_of_ne hno])
        (fun l => by simp [List.count_cons_of_ne hnc]) (by rw [hcount])
      obtain ⟨ihe, iho⟩ := ih hrest
        (popWhilePrec op.prec operators (flushBuffer output buf)).2
        (op.char :: (popWhilePrec op.prec operators (flushBuffer output buf)).1) []
      rw [scan_operator]
      exact ⟨fun e he => ⟨(ihe e he).1, s1 (ihe e he).2⟩,
        fun r hr => ⟨s2 (iho r hr).1, s3 _ (iho r hr).2⟩⟩

theorem toPostfix_balance (cs : List Char)
    (hvalid : ∀ ch ∈ cs, isValidChar ch = true ∧ ch ≠ ' ') :
    (∀ e, toPostfix cs = .error e → e = .mismatchedParentheses) ∧
      (toPostfix cs = .error .mismatchedParentheses ↔ Unbalanced cs) := by
  obtain ⟨he, ho⟩ := scan_balance cs hvalid [] [] []
  unfold toPostfix Unbalanced
  cases hscan : scan cs [] [] [] with
  | error e =>
    obtain ⟨hmis, p, hp, hlt⟩ := he e hscan
    subst hmis
    refine ⟨fun e h => by simp at h; exact h.symm, ?_⟩
    simp only [true_iff]
    exact Or.inl ⟨p, hp, by simpa using hlt⟩
  | ok r =>
    obtain ⟨output, operators, buf⟩ := r
    obtain ⟨hpre, hcount⟩ := ho _ hscan
    simp only [List.count_nil, Nat.zero_add] at hpre hcount
    obtain ⟨de, dk⟩ := drain_count operators (flushBuffer output buf)
    simp only
    cases hdrain : drain operators (flushBuffer output buf) with
    | error e =>
      obtain ⟨hmis, hpos⟩ := de e hdrain
      subst hmis
      refine ⟨fun e h => by simp at h; exact h.symm, ?_⟩
      simp only [true_iff]
      exact Or.inr (by omega)
    | ok out =>
      have hz := dk out hdrain
      refine ⟨fun e h => by simp at h, ?_⟩
      constructor
      · intro h
        simp at h
      · rintro (⟨p, hp, hlt⟩ | hne)
        · exact absurd (hpre p hp) (by omega)
        · exact absurd hne (by omega)

theorem prefix_of_prefix_filter (q : Char → Bool) (l p : List Char)
    (hp : p <+: l.filter q) : ∃ p0, p0 <+: l ∧ p0.filter q = p := by
  induction l generalizing p with
  | nil =>
    simp at hp
    subst hp
    exact ⟨[], by simp, rfl⟩
  | cons a l ih =>
    by_cases ha : q a = true
    · rw [List.filter_cons_of_pos ha] at hp
      rcases List.prefix_cons_iff.1 hp with rfl | ⟨t, rfl, ht⟩
      · exact ⟨[], by simp, rfl⟩
      · obtain ⟨p0, hp0, hf⟩ := ih t ht
        exact ⟨a :: p0, List.cons_prefix_cons.2 ⟨rfl, hp0⟩, by simp [ha, hf]⟩
    · rw [List.filter_cons_of_neg ha] at hp
      obtain ⟨p0, hp0, hf⟩ := ih p hp
      exact ⟨a :: p0, List.cons_prefix_cons.2 ⟨rfl, hp0⟩, by simp [ha, hf]⟩

theorem count_open_strip (l : List Char) :
    (l.filter (fun ch => decide (ch ≠ ' '))).count '(' = l.count '(' :=
  List.count_filter (by decide)

theorem count_close_strip (l : List Char) :
    (l.filter (fun ch => decide (ch ≠ ' '))).count ')' = l.count ')' :=
  List.count_filter (by decide)

/-- Removing the spaces does not change whether the parentheses are balanced. -/
theorem unbalanced_strip (l : List Char) :
    Unbalanced (l.filter (fun ch => decide (ch ≠ ' '))) ↔ Unbalanced l := by
  unfold Unbalanced
  rw [count_open_strip, count_close_strip]
  constructor
  · rintro (⟨p, hp, hlt⟩ | hne)
    · obtain ⟨p0, hp0, hf⟩ := prefix_of_prefix_filter _ l p hp
      subst hf
      rw [count_open_strip, count_close_strip] at hlt
      exact Or.inl ⟨p0, hp0, hlt⟩
    · exact Or.inr hne
  · rintro (⟨p, hp, hlt⟩ | hne)
    · refine Or.inl ⟨_, hp.filter _, ?_⟩
      rw [count_open_strip, count_close_strip]
      exact hlt
    · exact Or.inr hne

/-! ## Errors of the evaluator -/

theorem isNumber_iff {F : Type} (M : FloatOps F) (token : String) :
    isNumber M token = true ↔ ∃ v, M.parseFloat token = .ok v := by
  unfold isNumber
  cases M.parseFloat token <;> simp

theorem evalStep_error {F : Type} (M : FloatOps F) (token : String) (stack : List F)
    (e : CalcError) (h : evalStep M token stack = .error e) :
    isNumber M token = false ∧
      (e = .notEnoughOperands token ∧ stack.length < 2 ∨
        e = .divisionByZero ∧ token = "/" ∧ 2 ≤ stack.length ∨
        e = .invalidOperation token ∧ 2 ≤ stack.length) := by
  unfold evalStep at h
  cases hnum : isNumber M token with
  | true =>
    obtain ⟨v, hv⟩ := (isNumber_iff M token).1 hnum
    simp [hnum, hv] at h
  | false =>
    refine ⟨rfl, ?_⟩
    simp only [hnum, Bool.false_eq_true, if_false] at h
    match stack, h with
    | [], h =>
      simp only [Except.error.injEq] at h
      exact Or.inl ⟨h.symm, by simp⟩
    | [_], h =>
      simp only [Except.error.injEq] at h
      exact Or.inl ⟨h.symm, by simp⟩
    | b :: a :: rest, h =>
      simp only at h
      split_ifs at h with h1 h2 h3 h4 h5
      · simp only [Except.error.injEq] at h
        exact Or.inr (Or.inl ⟨h.symm, h4, by simp⟩)
      · simp only [Except.error.injEq] at h
        exact Or.inr (Or.inr ⟨h.symm, by simp⟩)

/-- An error of the evaluation loop is raised at a token that is not a number,
and is one of three kinds. -/
theorem evalLoop_error {F : Type} (M : FloatOps F) (tokens : List String) (stack : List F)
    (e : CalcError) (h : evalLoop M tokens stack = .error e) :
    ∃ token ∈ tokens, isNumber M token = false ∧
      (e = .notEnoughOperands token ∨ e = .divisionByZero ∨ e = .invalidOperation token) := by
  induction tokens generalizing stack with
  | nil => simp [evalLoop] at h
  | cons token rest ih =>
    cases hstep : evalStep M token stack with
    | error e1 =>
      simp only [evalLoop, hstep, Except.error.injEq] at h
      subst h
      obtain ⟨hnum, hk⟩ := evalStep_error M token stack e1 hstep
      refine ⟨token, List.mem_cons_self _ _, hnum, ?_⟩
      rcases hk with hk | hk | hk
      · exact Or.inl hk.1
      · exact Or.inr (Or.inl hk.1)
      · exact Or.inr (Or.inr hk.1)
    | ok s1 =>
      simp only [evalLoop, hstep] at h
      obtain ⟨t, ht, hr⟩ := ih s1 h
      exact ⟨t, List.mem_cons_of_mem _ ht, hr⟩

theorem evaluatePostfix_error {F : Type} (M : FloatOps F) (tokens : List String)
    (e : CalcError) (h : evaluatePostfix M tokens = .error e) :
    e = .invalidExpression ∨ ∃ token ∈ tokens, isNumber M token = false ∧
      (e = .notEnoughOperands token ∨ e = .divisionByZero ∨ e = .invalidOperation token) := by
  unfold evaluatePostfix at h
  cases hloop : evalLoop M tokens [] with
  | error e1 =>
    simp only [hloop, Except.error.injEq] at h
    subst h
    exact Or.inr (evalLoop_error M tokens [] e1 hloop)
  | ok stack =>
    rw [hloop] at h
    match stack, h with
    | [], h => simp at h; exact Or.inl h.symm
    | [_], h => simp at h
    | _ :: _ :: _, h => simp at h; exact Or.inl h.symm

/-! ## Composition and monotonicity of the scan -/

theorem scan_append (a b : List Char) (output : List String) (operators buf : List Char) :
    scan (a ++ b) output operators buf
      = match scan a output operators buf with
        | .error e => .error e
        | .ok r => scan b r.1 r.2.1 r.2.2 := by
  induction a generalizing output operators buf with
  | nil => simp [scan]
  | cons ch a ih =>
    simp only [List.cons_append, scan]
    split_ifs
    · exact ih _ _ _
    · exact ih _ _ _
    · split
      · rfl
      · exact ih _ _ _
    · exact ih _ _ _
    · rfl

theorem scan_invalid (ch : Char) (h : isValidChar ch = false) (rest : List Char)
    (output : List String) (operators buf : List Char) :
    scan (ch :: rest) output operators buf = .error (.invalidCharacter ch) := by
  simp only [isValidChar, Bool.or_eq_false_iff, decide_eq_false_iff_not] at h
  obtain ⟨⟨⟨⟨⟨⟨⟨h1, h2⟩, h3⟩, h4⟩, h5⟩, h6⟩, h7⟩, _⟩ := h
  simp [scan, h1, h6, h7, precedence, h2, h3, h4, h5]

theorem mem_flushBuffer (output : List String) (buf : List Char) (x : String)
    (h : x ∈ output) : x ∈ flushBuffer output buf := by
  unfold flushBuffer
  split_ifs
  · exact List.mem_append_left _ h
  · exact h

theorem popToParen_mono (operators : List Char) (output : List String) (x : String)
    (h : x ∈ output) : x ∈ (popToParen operators output).2 := by
  induction operators generalizing output with
  | nil => exact h
  | cons top operators ih =>
    unfold popToParen
    split_ifs
    · exact ih _ (List.mem_append_left _ h)
    · exact h

theorem popWhilePrec_mono (p : Nat) (operators : List Char) (output : List String)
    (x : String) (h : x ∈ output) : x ∈ (popWhilePrec p operators output).2 := by
  induction operators generalizing output with
  | nil => exact h
  | cons top operators ih =>
    unfold popWhilePrec
    split_ifs
    · exact ih _ (List.mem_append_left _ h)
    · exact h

theorem drain_mono (operators : List Char) (output out : List String)
    (hd : drain operators output = .ok out) (x : String) (h : x ∈ output) : x ∈ out := by
  induction operators generalizing output with
  | nil =>
    simp only [drain, Except.ok.injEq] at hd
    subst hd
    exact h
  | cons top operators ih =>
    unfold drain at hd
    split_ifs at hd
    exact ih _ hd (List.mem_append_left _ h)

/-- A step on a rune that is not a digit or `.` flushes the buffer; what it leaves
in the output stays there. -/
theorem scan_step_mono (ch : Char) (hch : isNumChar ch = false) (rest : List Char)
    (output : List String) (operators buf : List Char) :
    scan (ch :: rest) output operators buf = .error (.invalidCharacter ch) ∨
      scan (ch :: rest) output operators buf = .error .mismatchedParentheses ∨
      ∃ (output' : List String) (operators' : List Char),
        scan (ch :: rest) output operators buf = scan rest output' operators' [] ∧
        ∀ x ∈ flushBuffer output buf, x ∈ output' := by
  simp only [scan, hch, Bool.false_eq_true, if_false]
  split_ifs
  · exact Or.inr (Or.inr ⟨_, _, rfl, fun x hx => hx⟩)
  · cases hpop : popToParen operators (flushBuffer output buf) with
    | mk stack out1 =>
      have hm := popToParen_mono operators (flushBuffer output buf)
      rw [hpop] at hm
      cases stack with
      | nil => exact Or.inr (Or.inl rfl)
      | cons top below => exact Or.inr (Or.inr ⟨_, _, rfl, hm⟩)
  · exact Or.inr (Or.inr ⟨_, _, rfl, fun x hx => popWhilePrec_mono _ _ _ x hx⟩)
  · exact Or.inl rfl

theorem scan_mono (cs : List Char) :
    ∀ (output : List String) (operators buf : List Char)
      (r : List String × List Char × List Char),
      scan cs output operators buf = .ok r → ∀ x ∈ output, x ∈ r.1 := by
  induction cs with
  | nil =>
    intro output operators buf r h x hx
    simp only [scan, Except.ok.injEq] at h
    subst h
    exact hx
  | cons ch rest ih =>
    intro output operators buf r h x hx
    cases hnum : isNumChar ch with
    | true =>
      rw [scan_numChar ch hnum] at h
      exact ih _ _ _ r h x hx
    | false =>
      rcases scan_step_mono ch hnum rest output operators buf with h1 | h1 | ⟨o, p, h1, hm⟩
      · rw [h1] at h
        cases h
      · rw [h1] at h
        cases h
      · rw [h1] at h
        exact ih _ _ _ r h x (hm x (mem_flushBuffer _ _ x hx))

/-- After a rune that is not a digit or `.` the number buffer is empty. -/
theorem scan_buffer_empty (pre : List Char) (hlast : ∀ c ∈ pre.getLast?, isNumChar c = false)
    (output : List String) (operators : List Char)
    (r : List String × List Char × List Char)
    (h : scan pre output operators [] = .ok r) : r.2.2 = [] := by
  rcases List.eq_nil_or_concat pre with hnil | ⟨pre', c, hcat⟩
  · subst hnil
    simp only [scan, Except.ok.injEq] at h
    subst h
    rfl
  · subst hcat
    have hc : isNumChar c = false := hlast c (by simp)
    rw [List.concat_eq_append, scan_append] at h
    cases h1 : scan pre' output operators [] with
    | error e => simp [h1] at h
    | ok r1 =>
      simp only [h1] at h
      rcases scan_step_mono c hc [] r1.1 r1.2.1 r1.2.2 with h2 | h2 | ⟨o, p, h2, _⟩
      · rw [h2] at h
        cases h
      · rw [h2] at h
        cases h
      · rw [h2] at h
        simp only [scan, Except.ok.injEq] at h
        subst h
        rfl

/-- A maximal run of digits and `.` of the scanned text is a token of the postfix
sequence. -/
theorem toPostfix_mem_run (pre t post : List Char) (output : List String)
    (ht : t ≠ []) (hnum : ∀ c ∈ t, isNumChar c = true)
    (hpre : ∀ c ∈ pre.getLast?, isNumChar c = false)
    (hpost : ∀ c ∈ post.head?, isNumChar c = false)
    (hconv : toPostfix (pre ++ t ++ post) = .ok output) : String.mk t ∈ output := by
  unfold toPostfix at hconv
  rw [List.append_assoc, scan_append] at hconv
  cases h1 : scan pre [] [] [] with
  | error e => simp [h1] at hconv
  | ok r1 =>
    have hbuf := scan_buffer_empty pre hpre [] [] r1 h1
    simp only [h1, hbuf] at hconv
    rw [scan_numChars t hnum, List.nil_append] at hconv
    have hflush : String.mk t ∈ flushBuffer r1.1 t := by
      simp [flushBuffer, ht]
    cases post with
    | nil =>
      simp only [scan] at hconv
      exact drain_mono _ _ _ hconv _ hflush
    | cons c post' =>
      have hc : isNumChar c = false := hpost c (by simp)
      rcases scan_step_mono c hc post' r1.1 r1.2.1 t with h2 | h2 | ⟨o, p, h2, hm⟩
      · simp [h2] at hconv
      · simp [h2] at hconv
      · rw [h2] at hconv
        cases h3 : scan post' o p [] with
        | error e => simp [h3] at hconv
        | ok r3 =>
          obtain ⟨o3, p3, b3⟩ := r3
          simp only [h3] at hconv
          have hin : String.mk t ∈ o3 := scan_mono post' o p [] _ h3 _ (hm _ hflush)
          exact drain_mono _ _ _ hconv _ (mem_flushBuffer _ _ _ hin)

/-- A token that is neither a number nor an operator stops the evaluation loop. -/
theorem evalLoop_fails {F : Type} (M : FloatOps F) (tokens : List String) (token : String)
    (hmem : token ∈ tokens) (hnum : isNumber M token = false)
    (hop : token ≠ "+" ∧ token ≠ "-" ∧ token ≠ "*" ∧ token ≠ "/") :
    ∀ stack : List F, ∃ e, evalLoop M tokens stack = .error e := by
  induction tokens with
  | nil => simp at hmem
  | cons t rest ih =>
    intro stack
    cases hstep : evalStep M t stack with
    | error e => exact ⟨e, by simp [evalLoop, hstep]⟩
    | ok s1 =>
      rcases List.mem_cons.1 hmem with h | h
      · subst h
        exfalso
        unfold evalStep at hstep
        simp only [hnum, Bool.false_eq_true, if_false] at hstep
        match stack, hstep with
        | [], hstep => cases hstep
        | [_], hstep => cases hstep
        | b :: a :: rest, hstep =>
          simp [hop.1, hop.2.1, hop.2.2.1, hop.2.2.2] at hstep
      · obtain ⟨e, he⟩ := ih h s1
        exact ⟨e, by simp [evalLoop, hstep, he]⟩

/-! ## Theorems of the claims -/

/-- C1: for every well-formed parse tree `e` of the infix grammar (the tree that
standard precedence and left-associativity give to its text) and every string
`s` that is the text of `e` with space characters inserted anywhere, if every
literal parses and no division has a zero right operand, then `Calc` returns no
error and returns the value of the tree, computed with the same operations. -/
theorem Calc_infix_correct {F : Type} (M : FloatOps F) (e : Expr) (s : String)
    (hwf : e.WellFormed) (hs : stripSpaces s = e.render)
    (hp : e.LiteralsParse M) (hz : e.NoZeroDivisor M) :
    ∃ v, e.eval M = some v ∧ Calc M s = .ok v := by
  obtain ⟨v, hv⟩ := e.eval_defined M hp hz
  exact ⟨v, hv, (Calc_of_render M e s v hwf hs hv).2⟩

theorem Calc_infix_correct_witness :
    sampleExpr.WellFormed ∧ stripSpaces " 2 + 3*(4 - 1)/2" = sampleExpr.render ∧
      sampleExpr.LiteralsParse decOps ∧ sampleExpr.NoZeroDivisor decOps ∧
      (∃ v, sampleExpr.eval decOps = some v ∧ Calc decOps " 2 + 3*(4 - 1)/2" = .ok v) ∧
      sampleExpr.eval decOps = some (13 / 2) := by
  have hwf : sampleExpr.WellFormed := by
    simp [sampleExpr, Expr.WellFormed, Expr.level]
    decide
  have hs : stripSpaces " 2 + 3*(4 - 1)/2" = sampleExpr.render := by decide
  have hp : sampleExpr.LiteralsParse decOps :=
    ⟨⟨2, rfl⟩, ⟨⟨3, rfl⟩, ⟨4, rfl⟩, ⟨1, rfl⟩⟩, ⟨2, rfl⟩⟩
  have hz : sampleExpr.NoZeroDivisor decOps := by
    refine ⟨trivial, ⟨⟨trivial, ⟨trivial, trivial, by simp⟩, by simp⟩, trivial, ?_⟩, by simp⟩
    intro _ b hb
    have h2 : (Expr.lit ['2']).eval decOps = some 2 := rfl
    rw [h2] at hb
    cases hb
    decide
  have hv : sampleExpr.eval decOps = some (13 / 2) := by
    have h : sampleExpr.eval decOps = some ((2 : ℚ) + 3 * (4 - 1) / 2) := by rfl
    rw [h]
    norm_num
  exact ⟨hwf, hs, hp, hz, Calc_infix_correct decOps sampleExpr _ hwf hs hp hz, hv⟩

/-- C2: multiplication and division are applied before addition and subtraction:
`a op1 b op2 c` converts to `[a, b, c, op2, op1]` and evaluates to
`a op1 (b op2 c)`; with exact decimal arithmetic `Calc("2+3*4") = 14`. -/
theorem Calc_precedence {F : Type} (M : FloatOps F) (a b c : String) (x y z : F)
    (op1 op2 : Op) (ha : IsLiteral M a x) (hb : IsLiteral M b y) (hc : IsLiteral M c z)
    (h1 : op1 = .plus ∨ op1 = .minus) (h2 : op2 = .times ∨ op2 = .divide)
    (hz : op2 = .divide → M.isZero z = false) :
    toPostfix (stripSpaces (a ++ op1.token ++ b ++ op2.token ++ c))
        = .ok [a, b, c, op2.token, op1.token] ∧
      Calc M (a ++ op1.token ++ b ++ op2.token ++ c)
        = .ok (op1.value M x (op2.value M y z)) ∧
      Calc decOps "2+3*4" = .ok 14 := by
  let e : Expr := .bin op1 (.lit a.data) (.bin op2 (.lit b.data) (.lit c.data))
  have hwf : e.WellFormed := by
    refine ⟨ha.wellFormed, ⟨hb.wellFormed, hc.wellFormed, ?_, ?_⟩, ?_, ?_⟩
    · exact le_of_lt (op2.prec_lt_level_lit _)
    · exact op2.prec_lt_level_lit _
    · exact le_of_lt (op1.prec_lt_level_lit _)
    · show op1.prec < op2.prec
      rcases h1 with h | h <;> rcases h2 with h' | h' <;> subst h <;> subst h' <;> decide
  have hv : e.eval M = some (op1.value M x (op2.value M y z)) :=
    Expr.eval_bin_value M op1 _ _ x _ ha.eval
      (Expr.eval_bin_value M op2 _ _ y z hb.eval hc.eval hz)
      (by rcases h1 with h | h <;> subst h <;> simp)
  have hs : stripSpaces (a ++ op1.token ++ b ++ op2.token ++ c) = e.render :=
    stripSpaces_of_render e hwf _ (by simp [e, Expr.render, Op.token, String.singleton])
  refine ⟨(Calc_of_render M e _ _ hwf hs hv).1, (Calc_of_render M e _ _ hwf hs hv).2, ?_⟩
  have h : Calc decOps "2+3*4" = .ok ((2 : ℚ) + 3 * 4) := by rfl
  rw [h]
  norm_num

theorem Calc_precedence_witness :
    IsLiteral decOps "8" 8 ∧ IsLiteral decOps "6" 6 ∧ IsLiteral decOps "4" 4 ∧
      toPostfix (stripSpaces "8-6/4") = .ok ["8", "6", "4", "/", "-"] ∧
      Calc decOps "8-6/4" = .ok (13 / 2) := by
  have ha : IsLiteral decOps "8" 8 := ⟨by decide, by decide, rfl⟩
  have hb : IsLiteral decOps "6" 6 := ⟨by decide, by decide, rfl⟩
  have hc : IsLiteral decOps "4" 4 := ⟨by decide, by decide, rfl⟩
  have h := Calc_precedence decOps "8" "6" "4" 8 6 4 .minus .divide ha hb hc
    (Or.inr rfl) (Or.inr rfl) (fun _ => by decide)
  have hval : Op.value decOps .minus 8 (Op.value decOps .divide 6 4) = (13 / 2 : ℚ) := by
    norm_num [Op.value, decOps]
  refine ⟨ha, hb, hc, h.1, ?_⟩
  have h2 := h.2.1
  rw [hval] at h2
  exact h2

/-- C3: parentheses override precedence: `(a op1 b) op2 c` converts to
`[a, b, op1, c, op2]` and evaluates to `(a op1 b) op2 c`; with exact decimal
arithmetic `Calc("(2+3)*4") = 20`. -/
theorem Calc_parentheses {F : Type} (M : FloatOps F) (a b c : String) (x y z : F)
    (op1 op2 : Op) (ha : IsLiteral M a x) (hb : IsLiteral M b y) (hc : IsLiteral M c z)
    (h1 : op1 = .plus ∨ op1 = .minus) (_h2 : op2 = .times ∨ op2 = .divide)
    (hz : op2 = .divide → M.isZero z = false) :
    toPostfix (stripSpaces ("(" ++ a ++ op1.token ++ b ++ ")" ++ op2.token ++ c))
        = .ok [a, b, op1.token, c, op2.token] ∧
      Calc M ("(" ++ a ++ op1.token ++ b ++ ")" ++ op2.token ++ c)
        = .ok (op2.value M (op1.value M x y) z) ∧
      Calc decOps "(2+3)*4" = .ok 20 := by
  let e : Expr := .bin op2 (.paren (.bin op1 (.lit a.data) (.lit b.data))) (.lit c.data)
  have hwf : e.WellFormed := by
    refine ⟨⟨ha.wellFormed, hb.wellFormed, ?_, ?_⟩, hc.wellFormed, ?_, ?_⟩
    · exact le_of_lt (op1.prec_lt_level_lit _)
    · exact op1.prec_lt_level_lit _
    · exact le_of_lt (op2.prec_lt_level_paren _)
    · exact op2.prec_lt_level_lit _
  have hin : (Expr.paren (.bin op1 (.lit a.data) (.lit b.data))).eval M
      = some (op1.value M x y) :=
    Expr.eval_bin_value M op1 _ _ x y ha.eval hb.eval
      (by rcases h1 with h | h <;> subst h <;> simp)
  have hv : e.eval M = some (op2.value M (op1.value M x y) z) :=
    Expr.eval_bin_value M op2 _ _ _ z hin hc.eval hz
  have hs : stripSpaces ("(" ++ a ++ op1.token ++ b ++ ")" ++ op2.token ++ c) = e.render :=
    stripSpaces_of_render e hwf _ (by simp [e, Expr.render, Op.token, String.singleton])
  refine ⟨(Calc_of_render M e _ _ hwf hs hv).1, (Calc_of_render M e _ _ hwf hs hv).2, ?_⟩
  have h : Calc decOps "(2+3)*4" = .ok (((2 : ℚ) + 3) * 4) := by rfl
  rw [h]
  norm_num

theorem Calc_parentheses_witness :
    IsLiteral decOps "8" 8 ∧ IsLiteral decOps "6" 6 ∧ IsLiteral decOps "4" 4 ∧
      toPostfix (stripSpaces "(8-6)/4") = .ok ["8", "6", "-", "4", "/"] ∧
      Calc decOps "(8-6)/4" = .ok (1 / 2) := by
  have ha : IsLiteral decOps "8" 8 := ⟨by decide, by decide, rfl⟩
  have hb : IsLiteral decOps "6" 6 := ⟨by decide, by decide, rfl⟩
  have hc : IsLiteral decOps "4" 4 := ⟨by decide, by decide, rfl⟩
  have h := Calc_parentheses decOps "8" "6" "4" 8 6 4 .minus .divide ha hb hc
    (Or.inr rfl) (Or.inr rfl) (fun _ => by decide)
  have hval : Op.value decOps .divide (Op.value decOps .minus 8 6) 4 = (1 / 2 : ℚ) := by
    norm_num [Op.value, decOps]
  refine ⟨ha, hb, hc, h.1, ?_⟩
  have h2 := h.2.1
  rw [hval] at h2
  exact h2

/-- C4: operators of equal precedence group left to right: for `op1`, `op2` of the
same precedence class and no zero divisor, `a op1 b op2 c` converts to
`[a, b, op1, c, op2]` and evaluates to `(a op1 b) op2 c`; with exact decimal
arithmetic `Calc("10-2-3") = 5`. -/
theorem Calc_left_assoc {F : Type} (M : FloatOps F) (a b c : String) (x y z : F)
    (op1 op2 : Op) (ha : IsLiteral M a x) (hb : IsLiteral M b y) (hc : IsLiteral M c z)
    (hclass : (op1 = .plus ∨ op1 = .minus) ∧ (op2 = .plus ∨ op2 = .minus) ∨
      (op1 = .times ∨ op1 = .divide) ∧ (op2 = .times ∨ op2 = .divide))
    (hy : op1 = .divide → M.isZero y = false) (hz : op2 = .divide → M.isZero z = false) :
    toPostfix (stripSpaces (a ++ op1.token ++ b ++ op2.token ++ c))
        = .ok [a, b, op1.token, c, op2.token] ∧
      Calc M (a ++ op1.token ++ b ++ op2.token ++ c)
        = .ok (op2.value M (op1.value M x y) z) ∧
      Calc decOps "10-2-3" = .ok 5 := by
  let e : Expr := .bin op2 (.bin op1 (.lit a.data) (.lit b.data)) (.lit c.data)
  have hwf : e.WellFormed := by
    refine ⟨⟨ha.wellFormed, hb.wellFormed, ?_, ?_⟩, hc.wellFormed, ?_, ?_⟩
    · exact le_of_lt (op1.prec_lt_level_lit _)
    · exact op1.prec_lt_level_lit _
    · show op2.prec ≤ op1.prec
      rcases hclass with ⟨h | h, h' | h'⟩ | ⟨h | h, h' | h'⟩ <;> subst h <;> subst h' <;> decide
    · exact op2.prec_lt_level_lit _
  have hv : e.eval M = some (op2.value M (op1.value M x y) z) :=
    Expr.eval_bin_value M op2 _ _ _ z
      (Expr.eval_bin_value M op1 _ _ x y ha.eval hb.eval hy) hc.eval hz
  have hs : stripSpaces (a ++ op1.token ++ b ++ op2.token ++ c) = e.render :=
    stripSpaces_of_render e hwf _ (by simp [e, Expr.render, Op.token, String.singleton])
  refine ⟨(Calc_of_render M e _ _ hwf hs hv).1, (Calc_of_render M e _ _ hwf hs hv).2, ?_⟩
  have h : Calc decOps "10-2-3" = .ok (((10 : ℚ) - 2) - 3) := by rfl
  rw [h]
  norm_num

theorem Calc_left_assoc_witness :
    IsLiteral decOps "8" 8 ∧ IsLiteral decOps "4" 4 ∧ IsLiteral decOps "2" 2 ∧
      toPostfix (stripSpaces "8/4/2") = .ok ["8", "4", "/", "2", "/"] ∧
      Calc decOps "8/4/2" = .ok 1 := by
  have ha : IsLiteral decOps "8" 8 := ⟨by decide, by decide, rfl⟩
  have hb : IsLiteral decOps "4" 4 := ⟨by decide, by decide, rfl⟩
  have hc : IsLiteral decOps "2" 2 := ⟨by decide, by decide, rfl⟩
  have h := Calc_left_assoc decOps "8" "4" "2" 8 4 2 .divide .divide ha hb hc
    (Or.inr ⟨Or.inr rfl, Or.inr rfl⟩) (fun _ => by decide) (fun _ => by decide)
  have hval : Op.value decOps .divide (Op.value decOps .divide 8 4) 2 = (1 : ℚ) := by
    norm_num [Op.value, decOps]
  refine ⟨ha, hb, hc, h.1, ?_⟩
  have h2 := h.2.1
  rw [hval] at h2
  exact h2

/-- C5 (as stated, refuted): a tab is a whitespace character, and `Calc` on the
string made of one tab fails with the invalid-character error, not with the
empty-expression error. -/
theorem Calc_whitespace_counterexample :
    "\t".data.all Char.isWhitespace = true ∧
      Calc decOps "\t" = .error (.invalidCharacter '\t') ∧
      Calc decOps "\t" ≠ .error .emptyExpression := by
  decide

/-- C5 (amended): for every input that is empty or consists only of space
characters U+0020, `Calc` fails with the error "empty expression"; in particular
`Calc("")` and `Calc("   ")`. -/
theorem Calc_only_spaces {F : Type} (M : FloatOps F) (s : String)
    (h : ∀ ch ∈ s.data, ch = ' ') :
    Calc M s = .error .emptyExpression ∧
      CalcError.message .emptyExpression = "empty expression" ∧
      Calc M "" = .error .emptyExpression ∧ Calc M "   " = .error .emptyExpression := by
  have hs : stripSpaces s = [] := by
    unfold stripSpaces
    rw [List.filter_eq_nil_iff]
    intro ch hch
    simp [h ch hch]
  refine ⟨by simp [Calc, hs], rfl, ?_, ?_⟩
  · have h0 : stripSpaces "" = [] := by decide
    simp [Calc, h0]
  · have h0 : stripSpaces "   " = [] := by decide
    simp [Calc, h0]

theorem Calc_only_spaces_witness :
    (∀ ch ∈ "  ".data, ch = ' ') ∧ Calc decOps "  " = .error .emptyExpression :=
  ⟨by decide, (Calc_only_spaces decOps "  " (by decide)).1⟩

/-- C6: for every expression made only of digits, `.`, the four operators,
parentheses and spaces, `Calc` fails with "mismatched parentheses" if and only if
the parentheses are unbalanced (some prefix holds more `)` than `(`, or the
totals differ); in particular `Calc("(1+2")` and `Calc("1+2)")` fail with it. -/
theorem Calc_mismatched_iff {F : Type} (M : FloatOps F) (s : String)
    (hvalid : ∀ ch ∈ s.data, isValidChar ch = true) :
    (Calc M s = .error .mismatchedParentheses ↔ Unbalanced s.data) ∧
      CalcError.message .mismatchedParentheses = "mismatched parentheses" ∧
      Calc M "(1+2" = .error .mismatchedParentheses ∧
      Calc M "1+2)" = .error .mismatchedParentheses := by
  refine ⟨?_, rfl, ?_, ?_⟩
  · have hv : ∀ ch ∈ stripSpaces s, isValidChar ch = true ∧ ch ≠ ' ' := by
      intro ch hch
      simp only [stripSpaces, List.mem_filter, decide_eq_true_eq] at hch
      exact ⟨hvalid ch hch.1, hch.2⟩
    obtain ⟨honly, hiff⟩ := toPostfix_balance (stripSpaces s) hv
    have hstrip : Unbalanced (stripSpaces s) ↔ Unbalanced s.data := unbalanced_strip s.data
    rw [← hstrip]
    unfold Calc
    by_cases hempty : stripSpaces s = []
    · simp only [hempty, if_true]
      constructor
      · intro h
        cases h
      · rintro (⟨p, hp, hlt⟩ | hne)
        · simp at hp
          subst hp
          simp at hlt
        · simp at hne
    · simp only [hempty, if_false]
      cases hpost : toPostfix (stripSpaces s) with
      | error e =>
        have he := honly e hpost
        subst he
        simp only [true_iff]
        exact hiff.1 hpost
      | ok output =>
        simp only
        constructor
        · intro h
          rcases evaluatePostfix_error M output _ h with h1 | ⟨t, _, _, h1 | h1 | h1⟩ <;> cases h1
        · intro h
          have := hiff.2 h
          rw [hpost] at this
          cases this
  · have h : toPostfix (stripSpaces "(1+2") = .error .mismatchedParentheses := by decide
    have h0 : stripSpaces "(1+2" ≠ [] := by decide
    simp [Calc, h, h0]
  · have h : toPostfix (stripSpaces "1+2)") = .error .mismatchedParentheses := by decide
    have h0 : stripSpaces "1+2)" ≠ [] := by decide
    simp [Calc, h, h0]

theorem Calc_mismatched_iff_witness :
    (∀ ch ∈ "(1 + 2))".data, isValidChar ch = true) ∧
      (Calc decOps "(1 + 2))" = .error .mismatchedParentheses ↔
        Unbalanced "(1 + 2))".data) ∧
      Calc decOps "(1 + 2))" = .error .mismatchedParentheses :=
  ⟨by decide, (Calc_mismatched_iff decOps "(1 + 2))" (by decide)).1, by decide⟩

/-- C7: if an expression holds a character `ch` other than a digit, `.`, an
operator, a parenthesis or a space, every character before the first such `ch`
is valid, and no prefix ending before `ch` has more `)` than `(`, then `Calc`
fails with "invalid character: " followed by `ch`, whatever follows `ch`; in
particular `Calc("1&2")`. -/
theorem Calc_invalid_character {F : Type} (M : FloatOps F) (s : String)
    (pre post : List Char) (ch : Char) (hs : s.data = pre ++ ch :: post)
    (hpre : ∀ c ∈ pre, isValidChar c = true) (hch : isValidChar ch = false)
    (hbal : ∀ p, p <+: pre → p.count ')' ≤ p.count '(') :
    Calc M s = .error (.invalidCharacter ch) ∧
      CalcError.message (.invalidCharacter ch) = "invalid character: " ++ String.singleton ch ∧
      Calc M "1&2" = .error (.invalidCharacter '&') := by
  refine ⟨?_, rfl, ?_⟩
  · have hsp : ch ≠ ' ' := by
      intro h
      subst h
      exact absurd hch (by decide)
    have hstrip : stripSpaces s
        = pre.filter (fun c => decide (c ≠ ' ')) ++ ch :: post.filter (fun c => decide (c ≠ ' ')) := by
      simp [stripSpaces, hs, List.filter_cons, hsp]
    have hv : ∀ c ∈ pre.filter (fun c => decide (c ≠ ' ')), isValidChar c = true ∧ c ≠ ' ' := by
      intro c hc
      simp only [List.mem_filter, decide_eq_true_eq] at hc
      exact ⟨hpre c hc.1, hc.2⟩
    obtain ⟨hbe, _⟩ := scan_balance _ hv [] [] []
    have hne : stripSpaces s ≠ [] := by
      rw [hstrip]
      simp
    unfold Calc toPostfix
    simp only [hne, if_false]
    rw [hstrip, scan_append]
    cases hscan : scan (pre.filter (fun c => decide (c ≠ ' '))) [] [] [] with
    | error e =>
      exfalso
      obtain ⟨_, p, hp, hlt⟩ := hbe e hscan
      obtain ⟨p0, hp0, hf⟩ := prefix_of_prefix_filter _ pre p hp
      subst hf
      rw [count_open_strip, count_close_strip] at hlt
      have := hbal p0 hp0
      simp at hlt
      omega
    | ok r =>
      simp only [scan_invalid ch hch]
  · have h : toPostfix (stripSpaces "1&2") = .error (.invalidCharacter '&') := by decide
    have h0 : stripSpaces "1&2" ≠ [] := by decide
    simp [Calc, h, h0]

theorem Calc_invalid_character_witness :
    "(7 - x) * 2)".data = "(7 - ".data ++ 'x' :: ") * 2)".data ∧
      (∀ c ∈ "(7 - ".data, isValidChar c = true) ∧ isValidChar 'x' = false ∧
      Calc decOps "(7 - x) * 2)" = .error (.invalidCharacter 'x') := by
  have hbal : ∀ p, p <+: "(7 - ".data → p.count ')' ≤ p.count '(' := by
    intro p hp
    have hsub : p.count ')' ≤ "(7 - ".data.count ')' := hp.sublist.count_le _
    have h0 : "(7 - ".data.count ')' = 0 := by decide
    omega
  exact ⟨by decide, by decide, by decide,
    (Calc_invalid_character decOps "(7 - x) * 2)" "(7 - ".data ") * 2)".data 'x'
      (by decide) (by decide) (by decide) hbal).1⟩

/-- C8: a division whose right operand is zero is rejected before it is
performed: when `evaluatePostfix` reaches a "/" token with the operands `a`
(below) and `b` (top) on the stack and `b == 0`, it fails with "division by
zero"; so `Calc(n "/" z)` fails with it for every literal `n` and every literal
`z` of value zero, as "0", "0.0" and "00" are in decimal arithmetic. -/
theorem division_by_zero {F : Type} (M : FloatOps F) (pre rest : List String) (a b : F)
    (stack : List F) (n z : String) (x zv : F)
    (hpre : evalLoop M pre [] = .ok (b :: a :: stack)) (hb : M.isZero b = true)
    (hn : IsLiteral M n x) (hz : IsLiteral M z zv) (hzv : M.isZero zv = true) :
    evaluatePostfix M (pre ++ "/" :: rest) = .error .divisionByZero ∧
      Calc M (n ++ "/" ++ z) = .error .divisionByZero ∧
      CalcError.message .divisionByZero = "division by zero" ∧
      (IsLiteral decOps "0" 0 ∧ IsLiteral decOps "0.0" 0 ∧ IsLiteral decOps "00" 0 ∧
        decOps.isZero 0 = true) ∧
      Calc decOps "1/0" = .error .divisionByZero := by
  refine ⟨?_, ?_, rfl, ⟨?_, ?_, ?_, by decide⟩, by decide⟩
  · unfold evaluatePostfix
    rw [evalLoop_append M pre _ [] _ hpre]
    simp [evalLoop, evalStep_divide_zero M a b stack hb]
  · let e : Expr := .bin .divide (.lit n.data) (.lit z.data)
    have hwf : e.WellFormed :=
      ⟨hn.wellFormed, hz.wellFormed, le_of_lt (Op.prec_lt_level_lit _ _),
        Op.prec_lt_level_lit _ _⟩
    have hs : stripSpaces (n ++ "/" ++ z) = e.render :=
      stripSpaces_of_render e hwf _ (by simp [e, Expr.render, Op.char])
    have hpost : toPostfix (stripSpaces (n ++ "/" ++ z)) = .ok [n, z, "/"] := by
      rw [hs, toPostfix_render e hwf]
      rfl
    have hne : stripSpaces (n ++ "/" ++ z) ≠ [] := by
      rw [hs]
      exact e.render_ne_nil hwf
    unfold Calc
    rw [hpost]
    simp [hne, evaluatePostfix, evalLoop, evalStep_number M n x hn.2.2,
      evalStep_number M z zv hz.2.2, evalStep_divide_zero M x zv [] hzv]
  · exact ⟨by decide, by decide, rfl⟩
  · exact ⟨by decide, by decide, rfl⟩
  · exact ⟨by decide, by decide, rfl⟩

theorem division_by_zero_witness :
    evalLoop decOps ["7", "3", "0.0"] [] = .ok [0, 3, 7] ∧ decOps.isZero 0 = true ∧
      IsLiteral decOps "12" 12 ∧ IsLiteral decOps "0.0" 0 ∧
      evaluatePostfix decOps (["7", "3", "0.0"] ++ "/" :: ["+"]) = .error .divisionByZero ∧
      Calc decOps ("12" ++ "/" ++ "0.0") = .error .divisionByZero := by
  have hpre : evalLoop decOps ["7", "3", "0.0"] [] = .ok [0, 3, 7] := by rfl
  have hn : IsLiteral decOps "12" 12 := ⟨by decide, by decide, rfl⟩
  have hz : IsLiteral decOps "0.0" 0 := ⟨by decide, by decide, rfl⟩
  have h := division_by_zero decOps ["7", "3", "0.0"] ["+"] 3 0 [7] "12" "0.0" 12 0
    hpre (by decide) hn hz (by decide)
  exact ⟨hpre, by decide, hn, hz, h.1, h.2.1⟩

/-- C9: a trailing operator passes conversion and is rejected by the evaluator:
for every literal `n` and operator `op`, `Calc(n op)` converts to `[n, op]` and
fails with "not enough operands for operation: " followed by `op`; in particular
`Calc("1+")`. -/
theorem Calc_trailing_operator {F : Type} (M : FloatOps F) (n : String) (x : F) (op : Op)
    (hn : IsLiteral M n x) :
    toPostfix (stripSpaces (n ++ op.token)) = .ok [n, op.token] ∧
      Calc M (n ++ op.token) = .error (.notEnoughOperands op.token) ∧
      CalcError.message (.notEnoughOperands op.token)
        = "not enough operands for operation: " ++ op.token ∧
      Calc decOps "1+" = .error (.notEnoughOperands "+") := by
  have hs : stripSpaces (n ++ op.token) = n.data ++ [op.char] := by
    rw [stripSpaces_eq_self]
    · simp [Op.token, String.singleton]
    · intro ch hch
      simp only [Op.token, String.singleton, String.data_append, List.mem_append] at hch
      rcases hch with h | h
      · exact isNumChar_ne_space (hn.2.1 ch h)
      · simp at h
        subst h
        exact op.char_ne_space
  have hpost : toPostfix (stripSpaces (n ++ op.token)) = .ok [n, op.token] := by
    rw [hs, toPostfix_trailing_operator n.data hn.1 hn.2.1 op]
  refine ⟨hpost, ?_, rfl, by decide⟩
  have hne : stripSpaces (n ++ op.token) ≠ [] := by
    rw [hs]
    simp
  unfold Calc
  rw [hpost]
  simp [hne, evaluatePostfix, evalLoop, evalStep_number M n x hn.2.2,
    evalStep_operator_short M op x]

theorem Calc_trailing_operator_witness :
    IsLiteral decOps "2.5" (5 / 2) ∧
      toPostfix (stripSpaces "2.5/") = .ok ["2.5", "/"] ∧
      Calc decOps "2.5/" = .error (.notEnoughOperands "/") := by
  have hn : IsLiteral decOps "2.5" (5 / 2) := by
    refine ⟨by decide, by decide, ?_⟩
    have h : decOps.parseFloat "2.5" = .ok (mkRat 25 10) := by rfl
    rw [h]
    norm_num
  have h := Calc_trailing_operator decOps "2.5" (5 / 2) .divide hn
  exact ⟨hn, h.1, h.2.1⟩

/-- C10 (as stated, refuted): `1.2.3` converts to the single token "1.2.3", which
`isNumber` rejects; `Calc` then fails with "not enough operands for operation:
1.2.3", not with an error of the numeric parse. -/
theorem Calc_malformed_literal_counterexample :
    toPostfix (stripSpaces "1.2.3") = .ok ["1.2.3"] ∧ isNumber decOps "1.2.3" = false ∧
      Calc decOps "1.2.3" = .error (.notEnoughOperands "1.2.3") ∧
      ¬ ∃ msg, Calc decOps "1.2.3" = .error (.parse msg) := by
  refine ⟨by decide, by decide, by decide, ?_⟩
  rintro ⟨msg, h⟩
  have h2 : Calc decOps "1.2.3" = .error (.notEnoughOperands "1.2.3") := by decide
  rw [h2] at h
  cases h

/-- C10 (amended): if an expression converts successfully and holds a malformed
numeric literal (a maximal run `t` of digits and `.` that does not parse as a
number), then `Calc` fails, and never with an error of the numeric parse: the
malformed literal is not a number for `isNumber`, so the failure is "not enough
operands" or "invalid operation" naming a token of the postfix sequence, or
"division by zero"; in particular `Calc("1.2.3")` and `Calc(".")` fail with
"not enough operands for operation: " followed by the literal. -/
theorem Calc_malformed_literal {F : Type} (M : FloatOps F) (s : String)
    (pre t post : List Char) (output : List String)
    (hs : stripSpaces s = pre ++ t ++ post) (ht : t ≠ [])
    (hnum : ∀ c ∈ t, isNumChar c = true)
    (hpre : ∀ c ∈ pre.getLast?, isNumChar c = false)
    (hpost : ∀ c ∈ post.head?, isNumChar c = false)
    (hbad : isNumber M (String.mk t) = false)
    (hconv : toPostfix (stripSpaces s) = .ok output) :
    (∃ e, Calc M s = .error e ∧ (∀ msg, e ≠ .parse msg) ∧
        (e = .divisionByZero ∨
          ∃ token ∈ output, e = .notEnoughOperands token ∨ e = .invalidOperation token)) ∧
      Calc decOps "1.2.3" = .error (.notEnoughOperands "1.2.3") ∧
      Calc decOps "." = .error (.notEnoughOperands ".") := by
  refine ⟨?_, by decide, by decide⟩
  have hmem : String.mk t ∈ output := by
    rw [hs] at hconv
    exact toPostfix_mem_run pre t post output ht hnum hpre hpost hconv
  have hop : String.mk t ≠ "+" ∧ String.mk t ≠ "-" ∧ String.mk t ≠ "*" ∧ String.mk t ≠ "/" := by
    obtain ⟨c, t', rfl⟩ := List.exists_cons_of_ne_nil ht
    have hc : isNumChar c = true := hnum c (List.mem_cons_self _ _)
    refine ⟨?_, ?_, ?_, ?_⟩ <;>
    · intro h
      have h' := congrArg String.data h
      simp only [List.cons.injEq] at h'
      obtain ⟨h1, _⟩ := h'
      subst h1
      exact absurd hc (by decide)
  obtain ⟨e, he⟩ := evalLoop_fails M output (String.mk t) hmem hbad hop []
  have hne : stripSpaces s ≠ [] := by
    rw [hs]
    simp [ht]
  have hcalc : Calc M s = .error e := by
    unfold Calc
    simp [hne, hconv, evaluatePostfix, he]
  obtain ⟨token, htok, _, hk⟩ := evalLoop_error M output [] e he
  refine ⟨e, hcalc, ?_, ?_⟩
  · intro msg hmsg
    subst hmsg
    rcases hk with h | h | h <;> cases h
  · rcases hk with h | h | h
    · exact Or.inr ⟨token, htok, Or.inl h⟩
    · exact Or.inl h
    · exact Or.inr ⟨token, htok, Or.inr h⟩

theorem Calc_malformed_literal_witness :
    stripSpaces "1 + 2*3.4.5" = "1+2*".data ++ "3.4.5".data ++ [] ∧
      isNumber decOps "3.4.5" = false ∧
      toPostfix (stripSpaces "1 + 2*3.4.5") = .ok ["1", "2", "3.4.5", "*", "+"] ∧
      (∃ e, Calc decOps "1 + 2*3.4.5" = .error e ∧ (∀ msg, e ≠ .parse msg) ∧
        (e = .divisionByZero ∨ ∃ token ∈ ["1", "2", "3.4.5", "*", "+"],
          e = .notEnoughOperands token ∨ e = .invalidOperation token)) ∧
      Calc decOps "1 + 2*3.4.5" = .error (.invalidOperation "3.4.5") :=
  ⟨by decide, by decide, by decide,
    (Calc_malformed_literal decOps "1 + 2*3.4.5" "1+2*".data "3.4.5".data []
      ["1", "2", "3.4.5", "*", "+"] (by decide) (by decide) (by decide) (by decide)
      (by decide) (by decide) (by decide)).1, by decide⟩

/-! ## Further lemmas on the evaluation loop -/

theorem evalLoop_append_eq {F : Type} (M : FloatOps F) (pre rest : List String)
    (stack : List F) :
    evalLoop M (pre ++ rest) stack
      = match evalLoop M pre stack with
        | .error e => .error e
        | .ok stack' => evalLoop M rest stack' := by
  induction pre generalizing stack with
  | nil => simp [evalLoop]
  | cons token pre ih =>
    cases hstep : evalStep M token stack with
    | error e => simp [evalLoop, hstep]
    | ok s1 => simp [evalLoop, hstep, ih]

theorem isOperatorToken_iff (token : String) :
    isOperatorToken token = true ↔ ∃ op : Op, token = op.token := by
  constructor
  · intro h
    simp only [isOperatorToken, Bool.or_eq_true, decide_eq_true_eq] at h
    rcases h with ((h | h) | h) | h
    · exact ⟨.plus, by rw [h]; decide⟩
    · exact ⟨.minus, by rw [h]; decide⟩
    · exact ⟨.times, by rw [h]; decide⟩
    · exact ⟨.divide, by rw [h]; decide⟩
  · rintro ⟨op, rfl⟩
    cases op <;> decide

theorem isOperatorToken_of_isNumber {F : Type} (M : FloatOps F) (token : String)
    (h : isNumber M token = true) : isOperatorToken token = false := by
  cases hop : isOperatorToken token with
  | false => rfl
  | true =>
    obtain ⟨op, rfl⟩ := (isOperatorToken_iff token).1 hop
    rw [isNumber_operator M op] at h
    cases h

/-- A token that is neither a number nor an operator: the test on the stack size
comes first, the `default` case of the `switch` second. -/
theorem evalStep_unknown {F : Type} (M : FloatOps F) (token : String) (stack : List F)
    (hnum : isNumber M token = false) (hop : isOperatorToken token = false) :
    evalStep M token stack
      = if stack.length < 2 then .error (.notEnoughOperands token)
        else .error (.invalidOperation token) := by
  simp only [isOperatorToken, Bool.or_eq_false_iff, decide_eq_false_iff_not] at hop
  obtain ⟨⟨⟨h1, h2⟩, h3⟩, h4⟩ := hop
  unfold evalStep
  simp only [hnum, Bool.false_eq_true, if_false]
  match stack with
  | [] => simp
  | [_] => simp
  | b :: a :: rest =>
    have hlen : ¬ (rest.length + 1 + 1 < 2) := by omega
    simp [h1, h2, h3, h4, hlen]

/-- A successful step changes the stack size by one: up for a number, down for
an operator; no other token passes. -/
theorem evalStep_length {F : Type} (M : FloatOps F) (token : String) (stack stack' : List F)
    (h : evalStep M token stack = .ok stack') :
    (isNumber M token = true ∧ isOperatorToken token = false ∧
        stack'.length = stack.length + 1) ∨
      (isNumber M token = false ∧ isOperatorToken token = true ∧
        stack'.length + 1 = stack.length) := by
  cases hnum : isNumber M token with
  | true =>
    obtain ⟨v, hv⟩ := (isNumber_iff M token).1 hnum
    rw [evalStep_number M token v hv] at h
    cases h
    exact Or.inl ⟨rfl, isOperatorToken_of_isNumber M token hnum, rfl⟩
  | false =>
    cases hop : isOperatorToken token with
    | false =>
      rw [evalStep_unknown M token stack hnum hop] at h
      split_ifs at h
    | true =>
      refine Or.inr ⟨rfl, rfl, ?_⟩
      obtain ⟨op, rfl⟩ := (isOperatorToken_iff token).1 hop
      match stack, h with
      | [], h => simp [evalStep, hnum] at h
      | [_], h => simp [evalStep, hnum] at h
      | b :: a :: rest, h =>
        rw [evalStep_operator] at h
        cases happ : op.apply M a b with
        | none => simp [happ] at h
        | some v =>
          simp only [happ, Except.ok.injEq] at h
          subst h
          simp

theorem evalLoop_length {F : Type} (M : FloatOps F) (tokens : List String) :
    ∀ (stack stack' : List F), evalLoop M tokens stack = .ok stack' →
      stack'.length + tokens.countP isOperatorToken
        = stack.length + tokens.countP (isNumber M) := by
  induction tokens with
  | nil =>
    intro stack stack' h
    simp only [evalLoop, Except.ok.injEq] at h
    subst h
    simp
  | cons token rest ih =>
    intro stack stack' h
    cases hstep : evalStep M token stack with
    | error e => simp [evalLoop, hstep] at h
    | ok s1 =>
      simp only [evalLoop, hstep] at h
      have h1 := ih s1 stack' h
      rcases evalStep_length M token stack s1 hstep with ⟨hn, ho, hl⟩ | ⟨hn, ho, hl⟩
      · simp only [List.countP_cons, hn, ho, if_true, Bool.false_eq_true, if_false]
        omega
      · simp only [List.countP_cons, hn, ho, if_true, Bool.false_eq_true, if_false]
        omega

theorem evalLoop_numbers {F : Type} (M : FloatOps F) (nums : List String)
    (hnums : ∀ t ∈ nums, isNumber M t = true) :
    ∀ stack : List F, ∃ stack', evalLoop M nums stack = .ok stack' ∧
      stack'.length = stack.length + nums.length := by
  induction nums with
  | nil => exact fun stack => ⟨stack, rfl, rfl⟩
  | cons t rest ih =>
    intro stack
    obtain ⟨v, hv⟩ := (isNumber_iff M t).1 (hnums t (List.mem_cons_self _ _))
    obtain ⟨s', hs', hl⟩ := ih (fun u hu => hnums u (List.mem_cons_of_mem _ hu)) (v :: stack)
    refine ⟨s', ?_, ?_⟩
    · simp [evalLoop, evalStep_number M t v hv, hs']
    · simp only [List.length_cons] at hl ⊢
      omega

theorem evaluatePostfix_ok_iff {F : Type} (M : FloatOps F) (tokens : List String) (v : F) :
    evaluatePostfix M tokens = .ok v ↔ evalLoop M tokens [] = .ok [v] := by
  unfold evaluatePostfix
  cases hloop : evalLoop M tokens [] with
  | error e => simp
  | ok stack =>
    match stack with
    | [] => simp
    | [w] => simp
    | _ :: _ :: _ => simp

/-! ## Theorems of the claims on the evaluator -/

/-- C12 (as stated, refuted): the token "x" is neither a number nor an operator,
it is the first token, and with the empty stack `evaluatePostfix` fails with
"not enough operands for operation: x", not with "invalid operation: x". -/
theorem evaluatePostfix_unknown_token_counterexample :
    isNumber decOps "x" = false ∧ isOperatorToken "x" = false ∧
      evaluatePostfix decOps ["x"] = .error (.notEnoughOperands "x") ∧
      evaluatePostfix decOps ["x"] ≠ .error (.invalidOperation "x") := by
  decide

/-- C12 (amended): when the first offending token `t` is neither a valid number
nor one of the four operators (the tokens before it being processed without
error), `evaluatePostfix` fails with "invalid operation: " followed by `t` if at
least two operands are on the stack when `t` is reached, and with "not enough
operands for operation: " followed by `t` if fewer than two are. -/
theorem evaluatePostfix_unknown_token {F : Type} (M : FloatOps F) (pre rest : List String)
    (t : String) (stack : List F) (hpre : evalLoop M pre [] = .ok stack)
    (hnum : isNumber M t = false) (hop : isOperatorToken t = false) :
    (2 ≤ stack.length → evaluatePostfix M (pre ++ t :: rest) = .error (.invalidOperation t)) ∧
      (stack.length < 2 →
        evaluatePostfix M (pre ++ t :: rest) = .error (.notEnoughOperands t)) ∧
      CalcError.message (.invalidOperation t) = "invalid operation: " ++ t := by
  have hrun : evalLoop M (pre ++ t :: rest) []
      = if stack.length < 2 then .error (.notEnoughOperands t)
        else .error (.invalidOperation t) := by
    rw [evalLoop_append M pre _ [] stack hpre]
    simp only [evalLoop, evalStep_unknown M t stack hnum hop]
    split_ifs <;> rfl
  refine ⟨?_, ?_, rfl⟩
  · intro h
    have hlt : ¬ stack.length < 2 := by omega
    simp [evaluatePostfix, hrun, hlt]
  · intro h
    simp [evaluatePostfix, hrun, h]

theorem evaluatePostfix_unknown_token_witness :
    evalLoop decOps ["1", "2"] [] = .ok [2, 1] ∧ isNumber decOps "x" = false ∧
      isOperatorToken "x" = false ∧
      evaluatePostfix decOps (["1", "2"] ++ "x" :: ["+"]) = .error (.invalidOperation "x") := by
  have hpre : evalLoop decOps ["1", "2"] [] = .ok [2, 1] := by rfl
  exact ⟨hpre, by decide, by decide,
    (evaluatePostfix_unknown_token decOps ["1", "2"] ["+"] "x" [2, 1] hpre
      (by decide) (by decide)).1 (by decide)⟩

/-- C13: when every step of `evaluatePostfix` succeeds, the result is the single
remaining stack value if exactly one value remains, and the error "invalid
expression" if zero or more than one remain; the empty token sequence and every
sequence of two or more numeric tokens fail with it, and so do `Calc("()")` and
`Calc("(1)(2)")`. -/
theorem evaluatePostfix_final_stack {F : Type} (M : FloatOps F) (tokens : List String)
    (stack : List F) (hrun : evalLoop M tokens [] = .ok stack) :
    (∀ v, stack = [v] → evaluatePostfix M tokens = .ok v) ∧
      (stack.length ≠ 1 → evaluatePostfix M tokens = .error .invalidExpression) ∧
      CalcError.message .invalidExpression = "invalid expression" ∧
      evaluatePostfix M [] = .error .invalidExpression ∧
      (∀ nums : List String, (∀ t ∈ nums, isNumber M t = true) → 2 ≤ nums.length →
        evaluatePostfix M nums = .error .invalidExpression) ∧
      Calc M "()" = .error .invalidExpression ∧
      Calc decOps "(1)(2)" = .error .invalidExpression := by
  have hlen : ∀ (toks : List String) (st : List F), evalLoop M toks [] = .ok st →
      st.length ≠ 1 → evaluatePostfix M toks = .error .invalidExpression := by
    intro toks st h hne
    unfold evaluatePostfix
    rw [h]
    match st, hne with
    | [], _ => rfl
    | [_], hne => exact absurd rfl hne
    | _ :: _ :: _, _ => rfl
  refine ⟨?_, hlen tokens stack hrun, rfl, rfl, ?_, ?_, by decide⟩
  · intro v hv
    subst hv
    exact (evaluatePostfix_ok_iff M tokens v).2 hrun
  · intro nums hnums h2
    obtain ⟨st, hst, hl⟩ := evalLoop_numbers M nums hnums []
    exact hlen nums st hst (by simp only [List.length_nil] at hl; omega)
  · have h : toPostfix (stripSpaces "()") = .ok [] := by decide
    have h0 : stripSpaces "()" ≠ [] := by decide
    simp only [Calc, h0, if_false, h]
    rfl

theorem evaluatePostfix_final_stack_witness :
    evalLoop decOps ["1", "2", "3", "+"] [] = .ok [5, 1] ∧
      evaluatePostfix decOps ["1", "2", "3", "+"] = .error .invalidExpression := by
  have hrun : evalLoop decOps ["1", "2", "3", "+"] [] = .ok [5, 1] := by
    have h : evalLoop decOps ["1", "2", "3", "+"] [] = .ok [(2 : ℚ) + 3, 1] := by rfl
    rw [h]
    norm_num
  exact ⟨hrun, (evaluatePostfix_final_stack decOps _ _ hrun).2.1 (by decide)⟩

/-- C14: the evaluator keeps the left-to-right operand order: for number tokens
`a`, `b` and an operator `op`, `evaluatePostfix([a, b, op])` is `a op b` with `a`
(pushed first) as left and `b` (pushed last) as right operand; `[a, b, "-"]`
gives `a-b`, and `[a, b, "/"]` gives `a/b` when `b` is not zero. -/
theorem evaluatePostfix_operand_order {F : Type} (M : FloatOps F) (a b : String) (x y : F)
    (op : Op) (ha : M.parseFloat a = .ok x) (hb : M.parseFloat b = .ok y)
    (hz : op = .divide → M.isZero y = false) :
    evaluatePostfix M [a, b, op.token] = .ok (op.value M x y) ∧
      evaluatePostfix M [a, b, "-"] = .ok (M.sub x y) ∧
      (M.isZero y = false → evaluatePostfix M [a, b, "/"] = .ok (M.div x y)) := by
  have hgen : ∀ o : Op, (o = .divide → M.isZero y = false) →
      evaluatePostfix M [a, b, o.token] = .ok (o.value M x y) := by
    intro o ho
    simp [evaluatePostfix, evalLoop, evalStep_number M a x ha, evalStep_number M b y hb,
      evalStep_operator, Op.apply_eq_value M o x y ho]
  refine ⟨hgen op hz, ?_, ?_⟩
  · exact hgen .minus (by simp)
  · intro h
    exact hgen .divide (fun _ => h)

theorem evaluatePostfix_operand_order_witness :
    decOps.parseFloat "7" = .ok 7 ∧ decOps.parseFloat "2" = .ok 2 ∧
      evaluatePostfix decOps ["7", "2", "/"] = .ok (7 / 2) ∧
      evaluatePostfix decOps ["7", "2", "-"] = .ok 5 := by
  have h := evaluatePostfix_operand_order decOps "7" "2" 7 2 .divide rfl rfl
    (fun _ => by decide)
  have h1 : Op.value decOps .divide 7 2 = (7 / 2 : ℚ) := rfl
  have h2 : decOps.sub 7 2 = (5 : ℚ) := by
    show (7 : ℚ) - 2 = 5
    norm_num
  refine ⟨rfl, rfl, ?_, ?_⟩
  · have h3 := h.1
    rw [h1] at h3
    exact h3
  · have h3 := h.2.1
    rw [h2] at h3
    exact h3

/-- C17: operand-stack size invariant: while `evaluatePostfix` processes a token
sequence without error, after each prefix the stack size plus the number of
operator tokens of the prefix equals its number of numeric tokens; hence on
every token sequence on which `evaluatePostfix` succeeds, the count of numeric
tokens is the count of operator tokens plus one. -/
theorem operand_stack_size {F : Type} (M : FloatOps F) (tokens : List String)
    (final : List F) (hrun : evalLoop M tokens [] = .ok final) :
    (∀ pre, pre <+: tokens → ∃ stack, evalLoop M pre [] = .ok stack ∧
        stack.length + pre.countP isOperatorToken = pre.countP (isNumber M)) ∧
      (∀ v, evaluatePostfix M tokens = .ok v →
        tokens.countP (isNumber M) = tokens.countP isOperatorToken + 1) := by
  constructor
  · rintro pre ⟨rest, rfl⟩
    rw [evalLoop_append_eq] at hrun
    cases hpre : evalLoop M pre [] with
    | error e => simp [hpre] at hrun
    | ok stack =>
      refine ⟨stack, rfl, ?_⟩
      have := evalLoop_length M pre [] stack hpre
      simpa using this
  · intro v hv
    have h1 := (evaluatePostfix_ok_iff M tokens v).1 hv
    have := evalLoop_length M tokens [] [v] h1
    simp only [List.length_cons, List.length_nil] at this
    omega

theorem operand_stack_size_witness :
    evalLoop decOps ["1", "2", "3", "*", "+"] [] = .ok [7] ∧
      (∃ stack, evalLoop decOps ["1", "2", "3", "*"] [] = .ok stack ∧
        stack.length + ["1", "2", "3", "*"].countP isOperatorToken
          = ["1", "2", "3", "*"].countP (isNumber decOps)) ∧
      ["1", "2", "3", "*", "+"].countP (isNumber decOps) = 3 ∧
      ["1", "2", "3", "*", "+"].countP isOperatorToken = 2 := by
  have hrun : evalLoop decOps ["1", "2", "3", "*", "+"] [] = .ok [7] := by
    have h : evalLoop decOps ["1", "2", "3", "*", "+"] [] = .ok [(1 : ℚ) + 2 * 3] := by rfl
    rw [h]
    norm_num
  exact ⟨hrun, (operand_stack_size decOps _ _ hrun).1 ["1", "2", "3", "*"]
    ⟨["+"], rfl⟩, by decide, by decide⟩

/-! ## Errors of the conversion -/

theorem scan_error_kind (cs : List Char) :
    ∀ (output : List String) (operators buf : List Char) (e : CalcError),
      scan cs output operators buf = .error e →
        e = .mismatchedParentheses ∨ ∃ ch, e = .invalidCharacter ch := by
  induction cs with
  | nil =>
    intro output operators buf e h
    simp [scan] at h
  | cons ch rest ih =>
    intro output operators buf e h
    cases hnum : isNumChar ch with
    | true =>
      rw [scan_numChar ch hnum] at h
      exact ih _ _ _ e h
    | false =>
      rcases scan_step_mono ch hnum rest output operators buf with h1 | h1 | ⟨o, p, h1, _⟩
      · rw [h1] at h
        cases h
        exact Or.inr ⟨ch, rfl⟩
      · rw [h1] at h
        cases h
        exact Or.inl rfl
      · rw [h1] at h
        exact ih _ _ _ e h

theorem toPostfix_error_kind (cs : List Char) (e : CalcError)
    (h : toPostfix cs = .error e) :
    e = .mismatchedParentheses ∨ ∃ ch, e = .invalidCharacter ch := by
  unfold toPostfix at h
  cases hscan : scan cs [] [] [] with
  | error e1 =>
    simp only [hscan, Except.error.injEq] at h
    subst h
    exact scan_error_kind cs _ _ _ e1 hscan
  | ok r =>
    obtain ⟨output, operators, buf⟩ := r
    simp only [hscan] at h
    exact Or.inl ((drain_count operators _).1 e h).1

theorem evaluatePostfix_error_kind {F : Type} (M : FloatOps F) (tokens : List String)
    (e : CalcError) (h : evaluatePostfix M tokens = .error e) : e.IsEvaluatorKind := by
  rcases evaluatePostfix_error M tokens e h with h1 | ⟨t, _, _, h1 | h1 | h1⟩
  · exact Or.inr (Or.inr (Or.inr h1))
  · exact Or.inl ⟨t, h1⟩
  · exact Or.inr (Or.inl h1)
  · exact Or.inr (Or.inr (Or.inl ⟨t, h1⟩))

theorem CalcError.IsEvaluatorKind.listed {e : CalcError} (h : e.IsEvaluatorKind) :
    e.IsListedKind := by
  rcases h with h | h | h | h
  · exact Or.inr (Or.inr (Or.inr (Or.inl h)))
  · exact Or.inr (Or.inr (Or.inr (Or.inr (Or.inl h))))
  · exact Or.inr (Or.inr (Or.inr (Or.inr (Or.inr (Or.inl h)))))
  · exact Or.inr (Or.inr (Or.inr (Or.inr (Or.inr (Or.inr h)))))

theorem CalcError.IsListedKind.not_parse {e : CalcError} (h : e.IsListedKind) :
    ∀ msg, e ≠ .parse msg := by
  intro msg hmsg
  subst hmsg
  rcases h with h | h | ⟨_, h⟩ | ⟨_, h⟩ | h | ⟨_, h⟩ | h <;> cases h

theorem Calc_error_kind {F : Type} (M : FloatOps F) (s : String) (e : CalcError)
    (h : Calc M s = .error e) : e.IsListedKind := by
  unfold Calc at h
  split_ifs at h with hempty
  · cases h
    exact Or.inl rfl
  · cases hpost : toPostfix (stripSpaces s) with
    | error e1 =>
      simp only [hpost, Except.error.injEq] at h
      subst h
      rcases toPostfix_error_kind _ e1 hpost with h1 | h1
      · exact Or.inr (Or.inl h1)
      · exact Or.inr (Or.inr (Or.inl h1))
    | ok output =>
      simp only [hpost] at h
      exact (evaluatePostfix_error_kind M output e h).listed

theorem stripSpaces_idem (s : String) : stripSpaces (String.mk (stripSpaces s)) = stripSpaces s := by
  simp [stripSpaces, List.filter_filter]

/-! ## Theorems of the claims on spaces and on the kinds of errors -/

/-- C19: `Calc` ignores exactly the space character U+0020 wherever it occurs:
`Calc(s)` equals `Calc` of `s` with all spaces removed, spaces between digits
included, which join into one literal (`Calc("1 2+3") = 15`); no other character
is removed before scanning: the scanned text keeps every other character of `s`,
in order, and a tab reaches the scanner. -/
theorem Calc_ignores_spaces {F : Type} (M : FloatOps F) (s : String) :
    Calc M s = Calc M (String.mk (stripSpaces s)) ∧
      ' ' ∉ stripSpaces s ∧
      (∀ ch, ch ≠ ' ' → (stripSpaces s).count ch = s.data.count ch) ∧
      (stripSpaces s).Sublist s.data ∧
      Calc decOps "1 2+3" = .ok 15 ∧
      Calc decOps "1\t2" = .error (.invalidCharacter '\t') := by
  refine ⟨?_, ?_, ?_, ?_, ?_, by decide⟩
  · unfold Calc
    rw [stripSpaces_idem]
  · simp [stripSpaces]
  · intro ch hch
    exact List.count_filter (by simpa using hch)
  · exact List.filter_sublist _
  · have h : Calc decOps "1 2+3" = .ok ((12 : ℚ) + 3) := by rfl
    rw [h]
    norm_num

/-- C20: the numeric-parse error branch of `evaluatePostfix` is unreachable: a
token reaches the parse only after `isNumber` accepted it with the same parse, so
no step returns a parse error, and the error returned by `evaluatePostfix` or
`Calc`, if any, is of one of seven kinds (empty expression, mismatched
parentheses, invalid character, not enough operands, division by zero, invalid
operation, invalid expression), each of which `Calc` does return on some input,
and never a number-parse error. -/
theorem parse_error_unreachable {F : Type} (M : FloatOps F) (tokens : List String)
    (s : String) (e : CalcError)
    (h : evaluatePostfix M tokens = .error e ∨ Calc M s = .error e) :
    (e.IsListedKind ∧ ∀ msg, e ≠ .parse msg) ∧
      (∀ (token : String) (stack : List F) (msg : String),
        evalStep M token stack ≠ .error (.parse msg)) ∧
      (Calc decOps "" = .error .emptyExpression ∧
        Calc decOps "(" = .error .mismatchedParentheses ∧
        Calc decOps "1&2" = .error (.invalidCharacter '&') ∧
        Calc decOps "1+" = .error (.notEnoughOperands "+") ∧
        Calc decOps "1/0" = .error .divisionByZero ∧
        Calc decOps "1+2*3.4.5" = .error (.invalidOperation "3.4.5") ∧
        Calc decOps "()" = .error .invalidExpression) := by
  have hkind : e.IsListedKind := by
    rcases h with h | h
    · exact (evaluatePostfix_error_kind M tokens e h).listed
    · exact Calc_error_kind M s e h
  refine ⟨⟨hkind, hkind.not_parse⟩, ?_, by decide⟩
  intro token stack msg hstep
  obtain ⟨_, hk⟩ := evalStep_error M token stack _ hstep
  rcases hk with hk | hk | hk <;> cases hk.1

theorem parse_error_unreachable_witness :
    Calc decOps "1.2.3" = .error (.notEnoughOperands "1.2.3") ∧
      (CalcError.notEnoughOperands "1.2.3").IsListedKind ∧
      ∀ msg, CalcError.notEnoughOperands "1.2.3" ≠ .parse msg := by
  have h : Calc decOps "1.2.3" = .error (.notEnoughOperands "1.2.3") := by decide
  have h2 := (parse_error_unreachable decOps [] "1.2.3" _ (Or.inr h)).1
  exact ⟨h, h2.1, h2.2⟩

/-! ## Theorems of the claims on the handler and on malformed input -/

/-- C15 (the code at the failing input): for a POST request whose expression is
empty, `Calc` returns the empty-expression error and `calculateHandler` answers
with status 500, not 422: the error of `Calc` is compared by identity with a
value `errors.New` has just allocated, and so is never found equal; the same
holds for every error of `Calc`. -/
theorem calculateHandler_error_status {F : Type} (M : FloatOps F) (formatFloat : F → String)
    (next : Nat) (expression : String) :
    Calc M "" = .error .emptyExpression ∧
      (calculateHandler M formatFloat next ⟨"POST", some ""⟩).status = 500 ∧
      (∀ e, Calc M expression = .error e →
        (calculateHandler M formatFloat next ⟨"POST", some expression⟩).status = 500) := by
  have hgen : ∀ (x : String) (e : CalcError), Calc M x = .error e →
      (calculateHandler M formatFloat next ⟨"POST", some x⟩).status = 500 := by
    intro x e he
    simp [calculateHandler, he, errorsIs, errorsNew]
  have hempty : Calc M "" = .error .emptyExpression := by
    have h0 : stripSpaces "" = [] := by decide
    simp [Calc, h0]
  exact ⟨hempty, hgen "" _ hempty, hgen expression⟩

theorem Expr.render_last (e : Expr) (hg : e.Grammatical) :
    ∃ init c, e.render = init ++ [c] ∧ (isNumChar c = true ∨ c = ')') := by
  induction e with
  | lit text =>
    rcases List.eq_nil_or_concat text with hnil | ⟨init, c, hcat⟩
    · exact absurd hnil hg.1
    · refine ⟨init, c, by simp [Expr.render, hcat], Or.inl (hg.2 c ?_)⟩
      simp [hcat]
  | paren e _ => exact ⟨'(' :: e.render, ')', by simp [Expr.render], Or.inr rfl⟩
  | bin op l r _ ihr =>
    obtain ⟨init, c, hr, hc⟩ := ihr hg.2
    exact ⟨l.render ++ op.char :: init, c, by simp [Expr.render, hr], hc⟩

theorem Expr.WellFormed.grammatical {e : Expr} (h : e.WellFormed) : e.Grammatical := by
  induction e with
  | lit text => exact h
  | paren e ih => exact ih h
  | bin op l r ihl ihr => exact ⟨ihl h.1, ihr h.2.1⟩

/-- C16 (as stated, refuted): `1(2)+` is over the valid alphabet, its
parentheses are balanced, and it is not the text of any tree of the grammar (it
ends with an operator); yet conversion gives `[1, 2, +]` and `Calc` returns 3. -/
theorem Calc_incomplete_infix_counterexample :
    (∀ ch ∈ "1(2)+".data, isValidChar ch = true) ∧ ¬ Unbalanced "1(2)+".data ∧
      (¬ ∃ e : Expr, e.Grammatical ∧ e.render = stripSpaces "1(2)+") ∧
      toPostfix (stripSpaces "1(2)+") = .ok ["1", "2", "+"] ∧
      Calc decOps "1(2)+" = .ok 3 := by
  have hpost : toPostfix (stripSpaces "1(2)+") = .ok ["1", "2", "+"] := by decide
  refine ⟨by decide, ?_, ?_, hpost, ?_⟩
  · intro hunb
    have hv : ∀ ch ∈ stripSpaces "1(2)+", isValidChar ch = true ∧ ch ≠ ' ' := by decide
    have h1 := (toPostfix_balance (stripSpaces "1(2)+") hv).2.2
      ((unbalanced_strip "1(2)+".data).2 hunb)
    rw [hpost] at h1
    cases h1
  · rintro ⟨e, hg, hr⟩
    obtain ⟨init, c, hic, hc⟩ := e.render_last hg
    rw [hic] at hr
    have hlast := congrArg List.getLast? hr
    have h2 : (stripSpaces "1(2)+").getLast? = some '+' := by decide
    rw [List.getLast?_append, h2] at hlast
    simp at hlast
    subst hlast
    rcases hc with hc | hc
    · exact absurd hc (by decide)
    · exact absurd hc (by decide)
  · have h : Calc decOps "1(2)+" = .ok ((1 : ℚ) + 2) := by rfl
    rw [h]
    norm_num

/-- C16 (amended): for every expression over the valid alphabet with balanced
parentheses that is not empty once the spaces are removed, whether or not it is
a syntactically complete infix expression, conversion succeeds and `Calc`
returns what the evaluator returns on the postfix sequence; so every failure of
`Calc` on it is an evaluator error (not enough operands, division by zero,
invalid operation or invalid expression), as for `5+`. -/
theorem Calc_balanced_converts {F : Type} (M : FloatOps F) (s : String)
    (hvalid : ∀ ch ∈ s.data, isValidChar ch = true) (hbal : ¬ Unbalanced s.data)
    (hne : stripSpaces s ≠ []) :
    (∃ output, toPostfix (stripSpaces s) = .ok output ∧
        Calc M s = evaluatePostfix M output) ∧
      (∀ e, Calc M s = .error e → e.IsEvaluatorKind) ∧
      (toPostfix (stripSpaces "5+") = .ok ["5", "+"] ∧
        Calc decOps "5+" = .error (.notEnoughOperands "+")) := by
  have hv : ∀ ch ∈ stripSpaces s, isValidChar ch = true ∧ ch ≠ ' ' := by
    intro ch hch
    simp only [stripSpaces, List.mem_filter, decide_eq_true_eq] at hch
    exact ⟨hvalid ch hch.1, hch.2⟩
  obtain ⟨honly, hiff⟩ := toPostfix_balance (stripSpaces s) hv
  have hconv : ∃ output, toPostfix (stripSpaces s) = .ok output := by
    cases hpost : toPostfix (stripSpaces s) with
    | error e =>
      have he := honly e hpost
      subst he
      exact absurd ((unbalanced_strip s.data).1 (hiff.1 hpost)) hbal
    | ok output => exact ⟨output, rfl⟩
  obtain ⟨output, hpost⟩ := hconv
  have hcalc : Calc M s = evaluatePostfix M output := by
    simp [Calc, hne, hpost]
  refine ⟨⟨output, hpost, hcalc⟩, ?_, by decide, by decide⟩
  intro e he
  rw [hcalc] at he
  exact evaluatePostfix_error_kind M output e he

theorem Calc_balanced_converts_witness :
    (∀ ch ∈ "(1 + 2) 3".data, isValidChar ch = true) ∧
      stripSpaces "(1 + 2) 3" ≠ [] ∧
      (∃ output, toPostfix (stripSpaces "(1 + 2) 3") = .ok output ∧
        Calc decOps "(1 + 2) 3" = evaluatePostfix decOps output) ∧
      Calc decOps "(1 + 2) 3" = .error .invalidExpression := by
  have hpost : toPostfix (stripSpaces "(1 + 2) 3") = .ok ["1", "2", "+", "3"] := by decide
  have hbal : ¬ Unbalanced "(1 + 2) 3".data := by
    intro hunb
    have hv : ∀ ch ∈ stripSpaces "(1 + 2) 3", isValidChar ch = true ∧ ch ≠ ' ' := by decide
    have h1 := (toPostfix_balance (stripSpaces "(1 + 2) 3") hv).2.2
      ((unbalanced_strip "(1 + 2) 3".data).2 hunb)
    rw [hpost] at h1
    cases h1
  exact ⟨by decide, by decide,
    (Calc_balanced_converts decOps "(1 + 2) 3" (by decide) hbal (by decide)).1, by decide⟩

/-! ## An operator in front of an expression -/

/-- Scanning a tree whose root binds tighter than the operator `c` on top of the
stack: `c` stays pending below the operators of the tree. -/
theorem scan_render_tight (c : Op) (e : Expr) (hwf : e.WellFormed) (hc : c.prec < e.level)
    (output : List String) (operators : List Char) :
    ∃ (output' : List String) (pend buf : List Char),
      (∀ rest, scan (e.render ++ rest) output (c.char :: operators) []
          = scan rest output' (pend ++ operators) buf) ∧
      (∀ ch ∈ pend, min e.level c.prec ≤ precedence ch) ∧
      flushBuffer output' buf ++ pend.map String.singleton
        = output ++ e.postfixForm ++ [c.token] := by
  have hlow : LowTop e.level (c.char :: operators) := by
    intro top htop
    simp at htop
    subst htop
    exact hc
  obtain ⟨o, pend, buf, hscan, hpend, hout⟩ := scan_render e hwf output (c.char :: operators) hlow
  refine ⟨o, pend ++ [c.char], buf, ?_, ?_, ?_⟩
  · intro rest
    rw [hscan]
    simp
  · intro ch hch
    rcases List.mem_append.mp hch with h | h
    · exact le_trans (Nat.min_le_left _ _) (hpend ch h)
    · simp at h
      subst h
      exact Nat.min_le_right _ _
  · simp only [List.map_append, List.map_cons, List.map_nil]
    rw [← List.append_assoc, hout]
    rfl

/-- Scanning the text of a well-formed tree with the operator `c` on top of the
stack: `c` goes to the output right after the leftmost operand it can take. -/
theorem scan_render_after_operator (c : Op) (e : Expr) (hwf : e.WellFormed) :
    ∀ (output : List String) (operators : List Char), LowTop 1 operators →
      ∃ (output' : List String) (pend buf : List Char),
        (∀ rest, scan (e.render ++ rest) output (c.char :: operators) []
            = scan rest output' (pend ++ operators) buf) ∧
        (∀ ch ∈ pend, min e.level c.prec ≤ precedence ch) ∧
        flushBuffer output' buf ++ pend.map String.singleton
          = output ++ (e.leftTerm c).postfixForm ++ c.token :: e.restTokens c := by
  induction e with
  | lit text =>
    intro output operators _
    have h := scan_render_tight c (.lit text) hwf (c.prec_lt_level_lit text) output operators
    simpa [Expr.leftTerm, Expr.restTokens] using h
  | paren e _ =>
    intro output operators _
    have h := scan_render_tight c (.paren e) hwf (c.prec_lt_level_paren e) output operators
    simpa [Expr.leftTerm, Expr.restTokens] using h
  | bin op l r ihl _ =>
    intro output operators hlow
    by_cases hsplit : op.prec ≤ c.prec
    · obtain ⟨hwl, hwr, hl, hr⟩ := hwf
      obtain ⟨o1, pend1, buf1, hscan1, hpend1, hout1⟩ := ihl hwl output operators hlow
      have hlowop : LowTop op.prec operators :=
        fun top htop => lt_of_lt_of_le (hlow top htop) op.prec_pos
      have hpop : popWhilePrec op.prec (pend1 ++ operators) (flushBuffer o1 buf1)
          = (operators, output ++ (l.leftTerm c).postfixForm ++ c.token :: l.restTokens c) := by
        rw [popWhilePrec_append op.prec pend1
          (fun ch hch => le_trans (le_min hl hsplit) (hpend1 ch hch)), hout1]
        exact popWhilePrec_lowTop op.prec operators hlowop _
      have hlowr : LowTop r.level (op.char :: operators) := by
        intro top htop
        simp at htop
        subst htop
        exact hr
      obtain ⟨o2, pend2, buf2, hscan2, hpend2, hout2⟩ := scan_render r hwr
        (output ++ (l.leftTerm c).postfixForm ++ c.token :: l.restTokens c)
        (op.char :: operators) hlowr
      refine ⟨o2, pend2 ++ [op.char], buf2, ?_, ?_, ?_⟩
      · intro rest
        simp only [Expr.render, List.append_assoc, List.cons_append]
        rw [hscan1, scan_operator, hpop]
        simp only []
        rw [hscan2]
        simp
      · intro ch hch
        have hlev : min (Expr.bin op l r).level c.prec ≤ op.prec := Nat.min_le_left _ _
        rcases List.mem_append.mp hch with h | h
        · exact le_trans hlev (le_of_lt (lt_of_lt_of_le hr (hpend2 ch h)))
        · simp at h
          subst h
          exact hlev
      · simp only [List.map_append, List.map_cons, List.map_nil, Expr.leftTerm,
          Expr.restTokens, hsplit, if_true]
        rw [← List.append_assoc, hout2]
        simp [Op.token]
    · have hc : c.prec < (Expr.bin op l r).level := Nat.lt_of_not_le hsplit
      have h := scan_render_tight c (.bin op l r) hwf hc output operators
      simpa [Expr.leftTerm, Expr.restTokens, hsplit] using h

/-- The conversion of an operator followed by the text of a well-formed tree. -/
theorem toPostfix_operator_render (c : Op) (e : Expr) (hwf : e.WellFormed) :
    toPostfix (c.char :: e.render)
      = .ok ((e.leftTerm c).postfixForm ++ c.token :: e.restTokens c) := by
  obtain ⟨o, pend, buf, hscan, hpend, hout⟩ :=
    scan_render_after_operator c e hwf [] [] (by intro top htop; simp at htop)
  have hs := hscan []
  simp only [List.append_nil] at hs
  have hno : ∀ ch ∈ pend, ch ≠ '(' := fun ch hch =>
    ne_open_of_precedence_pos
      (lt_of_lt_of_le (lt_min e.level_pos c.prec_pos) (hpend ch hch))
  unfold toPostfix
  rw [scan_operator]
  simp only [popWhilePrec, flushBuffer_nil]
  rw [hs]
  simp only [scan]
  rw [drain_operators pend hno, hout]
  simp

theorem Expr.eval_leftTerm {F : Type} (M : FloatOps F) (c : Op) (e : Expr) :
    ∀ v, e.eval M = some v → ∃ w, (e.leftTerm c).eval M = some w := by
  induction e with
  | lit text => exact fun v hv => ⟨v, hv⟩
  | paren e _ => exact fun v hv => ⟨v, hv⟩
  | bin op l r ihl _ =>
    intro v hv
    by_cases hsplit : op.prec ≤ c.prec
    · cases hl : l.eval M with
      | none => simp [Expr.eval, hl] at hv
      | some a =>
        obtain ⟨w, hw⟩ := ihl a hl
        exact ⟨w, by simpa [Expr.leftTerm, hsplit] using hw⟩
    · exact ⟨v, by simpa [Expr.leftTerm, hsplit] using hv⟩

/-! ## Theorems of the claim on the leading minus -/

/-- C11 (as stated, refuted): `-(1)(2)` starts with `-`, is over the valid
alphabet with balanced parentheses and converts (to `[1, 2, -]`), and `Calc`
returns the number -1 on it; and on `-1/0`, which converts too, the evaluation
fails with "division by zero", not with "not enough operands". -/
theorem Calc_leading_minus_counterexample :
    "-(1)(2)".data.head? = some '-' ∧ (∀ ch ∈ "-(1)(2)".data, isValidChar ch = true) ∧
      ¬ Unbalanced "-(1)(2)".data ∧
      toPostfix (stripSpaces "-(1)(2)") = .ok ["1", "2", "-"] ∧
      Calc decOps "-(1)(2)" = .ok (-1) ∧
      toPostfix (stripSpaces "-1/0") = .ok ["1", "0", "/", "-"] ∧
      Calc decOps "-1/0" = .error .divisionByZero := by
  have hpost : toPostfix (stripSpaces "-(1)(2)") = .ok ["1", "2", "-"] := by decide
  refine ⟨by decide, by decide, ?_, hpost, ?_, by decide, by decide⟩
  · intro hunb
    have hv : ∀ ch ∈ stripSpaces "-(1)(2)", isValidChar ch = true ∧ ch ≠ ' ' := by decide
    have h1 := (toPostfix_balance (stripSpaces "-(1)(2)") hv).2.2
      ((unbalanced_strip "-(1)(2)".data).2 hunb)
    rw [hpost] at h1
    cases h1
  · have h : Calc decOps "-(1)(2)" = .ok ((1 : ℚ) - 2) := by rfl
    rw [h]
    norm_num

/-! ## The shape of the converter's output -/

theorem runsFrom_nil_right (buf : List Char) :
    runsFrom buf [] = if buf ≠ [] then [String.mk buf] else [] := by
  by_cases h : buf = [] <;> simp [runsFrom, List.splitOnP_nil, h]

theorem numRuns_eq_runsFrom (text : List Char) : numRuns text = runsFrom [] text := by
  unfold numRuns runsFrom
  have h : (fun run : List Char => [] ++ run) = id := by
    funext run
    simp
  rw [h]
  cases List.splitOnP (fun ch => !isNumChar ch) text <;> simp [List.modifyHead]

theorem runsFrom_cons_num (buf : List Char) (ch : Char) (text : List Char)
    (h : isNumChar ch = true) : runsFrom buf (ch :: text) = runsFrom (buf ++ [ch]) text := by
  unfold runsFrom
  rw [List.splitOnP_cons]
  simp only [h, Bool.not_true, Bool.false_eq_true, if_false, List.modifyHead_modifyHead]
  congr 3
  funext run
  simp

theorem runsFrom_cons_sep (buf : List Char) (ch : Char) (text : List Char)
    (h : isNumChar ch = false) :
    runsFrom buf (ch :: text) = runsFrom buf [] ++ runsFrom [] text := by
  rw [← numRuns_eq_runsFrom, runsFrom_nil_right]
  unfold runsFrom numRuns
  rw [List.splitOnP_cons]
  by_cases hb : buf = [] <;> simp [h, hb, List.modifyHead]

theorem isOperatorChar_iff (ch : Char) : isOperatorChar ch = true ↔ ∃ op : Op, ch = op.char := by
  constructor
  · intro h
    simp only [isOperatorChar, Bool.or_eq_true, decide_eq_true_eq] at h
    rcases h with ((h | h) | h) | h
    · exact ⟨.plus, h⟩
    · exact ⟨.minus, h⟩
    · exact ⟨.times, h⟩
    · exact ⟨.divide, h⟩
  · rintro ⟨op, rfl⟩
    cases op <;> decide

theorem isOperatorChar_of_precedence {ch : Char} (h : 0 < precedence ch) :
    isOperatorChar ch = true := by
  unfold precedence at h
  unfold isOperatorChar
  split_ifs at h with h1 h2 h3 h4 <;> simp_all

theorem popToParen_split (operators : List Char) (output : List String) :
    ∃ popped, operators = popped ++ (popToParen operators output).1 ∧
      (popToParen operators output).2 = output ++ popped.map String.singleton ∧
      ∀ ch ∈ popped, ch ≠ '(' := by
  induction operators generalizing output with
  | nil => exact ⟨[], by simp [popToParen]⟩
  | cons top operators ih =>
    by_cases htop : top = '('
    · exact ⟨[], by simp [popToParen, htop]⟩
    · obtain ⟨popped, h1, h2, h3⟩ := ih (output ++ [String.singleton top])
      refine ⟨top :: popped, ?_, ?_, ?_⟩
      · simp only [popToParen, ne_eq, htop, not_false_eq_true, if_true, List.cons_append]
        rw [← h1]
      · simp only [popToParen, ne_eq, htop, not_false_eq_true, if_true, h2]
        simp
      · intro ch hch
        rcases List.mem_cons.1 hch with h | h
        · rw [h]
          exact htop
        · exact h3 ch h

theorem popWhilePrec_split (p : Nat) (hp : 0 < p) (operators : List Char)
    (output : List String) :
    ∃ popped, operators = popped ++ (popWhilePrec p operators output).1 ∧
      (popWhilePrec p operators output).2 = output ++ popped.map String.singleton ∧
      ∀ ch ∈ popped, isOperatorChar ch = true := by
  induction operators generalizing output with
  | nil => exact ⟨[], by simp [popWhilePrec]⟩
  | cons top operators ih =>
    by_cases htop : precedence top ≥ p
    · obtain ⟨popped, h1, h2, h3⟩ := ih (output ++ [String.singleton top])
      refine ⟨top :: popped, ?_, ?_, ?_⟩
      · simp only [popWhilePrec, htop, if_true, List.cons_append]
        rw [← h1]
      · simp only [popWhilePrec, htop, if_true, h2]
        simp
      · intro ch hch
        rcases List.mem_cons.1 hch with h | h
        · rw [h]
          exact isOperatorChar_of_precedence (lt_of_lt_of_le hp htop)
        · exact h3 ch h
    · exact ⟨[], by simp [popWhilePrec, htop]⟩

theorem drain_ok (operators : List Char) (output out : List String)
    (h : drain operators output = .ok out) :
    out = output ++ operators.map String.singleton ∧ ∀ ch ∈ operators, ch ≠ '(' := by
  induction operators generalizing output with
  | nil =>
    simp only [drain, Except.ok.injEq] at h
    subst h
    simp
  | cons top operators ih =>
    unfold drain at h
    split_ifs at h with htop
    obtain ⟨h1, h2⟩ := ih _ h
    refine ⟨by rw [h1]; simp, ?_⟩
    intro ch hch
    rcases List.mem_cons.1 hch with h | h
    · rw [h]
      exact htop
    · exact h2 ch h

theorem singleton_injective : Function.Injective String.singleton := by
  intro a b h
  have h' := congrArg String.data h
  simpa [String.singleton] using h'

theorem count_map_singleton (l : List Char) (c : Char) :
    (l.map String.singleton).count (String.singleton c) = l.count c :=
  List.count_map_of_injective l String.singleton singleton_injective c

theorem isOperatorToken_singleton (c : Char) :
    isOperatorToken (String.singleton c) = isOperatorChar c := by
  have h1 : ("+" : String) = String.singleton '+' := rfl
  have h2 : ("-" : String) = String.singleton '-' := rfl
  have h3 : ("*" : String) = String.singleton '*' := rfl
  have h4 : ("/" : String) = String.singleton '/' := rfl
  simp only [isOperatorToken, isOperatorChar, h1, h2, h3, h4,
    singleton_injective.eq_iff]

theorem flushBuffer_eq (output : List String) (buf : List Char) :
    flushBuffer output buf = output ++ runsFrom buf [] := by
  rw [runsFrom_nil_right]
  unfold flushBuffer
  split_ifs <;> simp

/-- A flushed run of digits and `.` is not the token of a character that is not
a digit or `.`. -/
theorem runsFrom_ne_singleton (buf : List Char) (hbuf : BufferOK buf) (t : String)
    (ht : t ∈ runsFrom buf []) (c : Char) (hc : isNumChar c = false) :
    t ≠ String.singleton c := by
  rw [runsFrom_nil_right] at ht
  split_ifs at ht with hne
  · simp only [List.mem_singleton] at ht
    subst ht
    intro h
    have h' := congrArg String.data h
    simp only [String.singleton] at h'
    have hmem : c ∈ buf := by
      rw [h']
      simp
    rw [hbuf c hmem] at hc
    cases hc
  · simp at ht

theorem runsFrom_not_operator (buf : List Char) (hbuf : BufferOK buf) (t : String)
    (ht : t ∈ runsFrom buf []) : isOperatorToken t = false := by
  cases hop : isOperatorToken t with
  | false => rfl
  | true =>
    obtain ⟨op, rfl⟩ := (isOperatorToken_iff t).1 hop
    exact absurd rfl (runsFrom_ne_singleton buf hbuf _ ht op.char op.isNumChar_char)

theorem isOperatorChar_not_num {c : Char} (h : isOperatorChar c = true) :
    isNumChar c = false := by
  obtain ⟨op, rfl⟩ := (isOperatorChar_iff c).1 h
  exact op.isNumChar_char

/-- One step of the scan on a rune that is not a digit or `.`: the buffer is
flushed, some operators go from the stack to the output, and the rune, if an
operator, goes onto the stack. -/
theorem scan_step_shape (ch : Char) (hch : isNumChar ch = false) (rest : List Char)
    (output : List String) (operators buf : List Char) (hops : OperatorsOK operators)
    (r : List String × List Char × List Char)
    (h : scan (ch :: rest) output operators buf = .ok r) :
    ∃ (operators' popped : List Char),
      scan rest (flushBuffer output buf ++ popped.map String.singleton) operators' [] = .ok r ∧
      OperatorsOK operators' ∧ (∀ c ∈ popped, isOperatorChar c = true) ∧
      (∀ c, isOperatorChar c = true →
        popped.count c + operators'.count c = operators.count c + [ch].count c) := by
  simp only [scan, hch, Bool.false_eq_true, if_false] at h
  split_ifs at h with h1 h2 h3
  · -- `(`
    subst h1
    refine ⟨'(' :: operators, [], by simpa using h, ?_, by simp, ?_⟩
    · intro c hc
      rcases List.mem_cons.1 hc with hc | hc
      · exact Or.inl hc
      · exact hops c hc
    · intro c hc
      have hne : c ≠ '(' := by
        intro hcc
        subst hcc
        exact absurd hc (by decide)
      simp [List.count_cons, Ne.symm hne]
  · -- `)`
    subst h2
    obtain ⟨popped, hsplit, hout, hno⟩ := popToParen_split operators (flushBuffer output buf)
    rcases popToParen_count operators (flushBuffer output buf) with
      ⟨hnil, _⟩ | ⟨below, hcons, _⟩
    · cases hpop : popToParen operators (flushBuffer output buf) with
      | mk stack out1 =>
        rw [hpop] at hnil h
        simp only at hnil
        subst hnil
        simp at h
    · cases hpop : popToParen operators (flushBuffer output buf) with
      | mk stack out1 =>
        rw [hpop] at hcons h hsplit hout
        simp only at hcons hsplit hout
        subst hcons
        subst hout
        simp only at h
        have hpopped : ∀ c ∈ popped, isOperatorChar c = true := by
          intro c hc
          rcases hops c (by rw [hsplit]; exact List.mem_append_left _ hc) with hp | hp
          · exact absurd hp (hno c hc)
          · exact hp
        refine ⟨below, popped, h, ?_, hpopped, ?_⟩
        · intro c hc
          exact hops c (by rw [hsplit]; simp [hc])
        · intro c hc
          have hne : c ≠ '(' := by
            intro hcc
            subst hcc
            exact absurd hc (by decide)
          have hne2 : c ≠ ')' := by
            intro hcc
            subst hcc
            exact absurd hc (by decide)
          rw [hsplit]
          simp [List.count_cons, Ne.symm hne, Ne.symm hne2]
  · -- an operator
    obtain ⟨popped, hsplit, hout, hpopped⟩ :=
      popWhilePrec_split (precedence ch) h3 operators (flushBuffer output buf)
    rw [hout] at h
    refine ⟨_, popped, h, ?_, hpopped, ?_⟩
    · intro c hc
      rcases List.mem_cons.1 hc with hc | hc
      · rw [hc]
        exact Or.inr (isOperatorChar_of_precedence h3)
      · exact hops c (by rw [hsplit]; exact List.mem_append_right _ hc)
    · intro c _
      conv_rhs => rw [hsplit]
      simp only [List.count_append, List.count_cons, List.count_nil]
      omega

/-- The shape of what the scan adds to the output: its non-operator tokens are
the runs of digits and `.` read, its operator tokens those popped from the stack,
and no parenthesis. -/
theorem scan_shape (cs : List Char) :
    ∀ (output : List String) (operators buf : List Char)
      (r : List String × List Char × List Char),
      scan cs output operators buf = .ok r → OperatorsOK operators → BufferOK buf →
        OperatorsOK r.2.1 ∧ BufferOK r.2.2 ∧
        ∃ added, r.1 = output ++ added ∧
          added.filter (fun t => !isOperatorToken t) ++ runsFrom r.2.2 [] = runsFrom buf cs ∧
          (∀ c, isOperatorChar c = true →
            added.count (String.singleton c) + r.2.1.count c = operators.count c + cs.count c) ∧
          (∀ t ∈ added, t ≠ "(" ∧ t ≠ ")") := by
  induction cs with
  | nil =>
    intro output operators buf r h hops hbuf
    simp only [scan, Except.ok.injEq] at h
    subst h
    exact ⟨hops, hbuf, [], by simp, by simp, by simp, by simp⟩
  | cons ch rest ih =>
    intro output operators buf r h hops hbuf
    cases hnum : isNumChar ch with
    | true =>
      rw [scan_numChar ch hnum] at h
      have hbuf' : BufferOK (buf ++ [ch]) := by
        intro c hc
        rcases List.mem_append.1 hc with hc | hc
        · exact hbuf c hc
        · simp at hc
          subst hc
          exact hnum
      obtain ⟨h1, h2, added, h3, h4, h5, h6⟩ := ih _ _ _ r h hops hbuf'
      refine ⟨h1, h2, added, h3, ?_, ?_, h6⟩
      · rw [h4, runsFrom_cons_num buf ch rest hnum]
      · intro c hc
        have hne : ch ≠ c := by
          intro hcc
          subst hcc
          rw [isOperatorChar_not_num hc] at hnum
          cases hnum
        rw [h5 c hc]
        simp [List.count_cons, hne]
    | false =>
      obtain ⟨operators', popped, hscan, hops', hpopped, hcount⟩ :=
        scan_step_shape ch hnum rest output operators buf hops r h
      obtain ⟨h1, h2, added, h3, h4, h5, h6⟩ :=
        ih _ _ _ r hscan hops' (by intro c hc; simp at hc)
      have hflush : ∀ t ∈ runsFrom buf [], isOperatorToken t = false :=
        fun t ht => runsFrom_not_operator buf hbuf t ht
      have hpopTok : ∀ t ∈ popped.map String.singleton, isOperatorToken t = true := by
        intro t ht
        obtain ⟨c, hc, rfl⟩ := List.mem_map.1 ht
        rw [isOperatorToken_singleton]
        exact hpopped c hc
      refine ⟨h1, h2, runsFrom buf [] ++ popped.map String.singleton ++ added, ?_, ?_, ?_, ?_⟩
      · rw [h3, flushBuffer_eq]
        simp
      · have hf1 : (runsFrom buf []).filter (fun t => !isOperatorToken t) = runsFrom buf [] := by
          rw [List.filter_eq_self]
          intro t ht
          simp [hflush t ht]
        have hf2 : (popped.map String.singleton).filter (fun t => !isOperatorToken t) = [] := by
          rw [List.filter_eq_nil_iff]
          intro t ht
          simp [hpopTok t ht]
        rw [List.filter_append, List.filter_append, hf1, hf2, List.append_nil,
          List.append_assoc, h4, runsFrom_cons_sep buf ch rest hnum]
      · intro c hc
        have hzero : (runsFrom buf []).count (String.singleton c) = 0 := by
          rw [List.count_eq_zero]
          intro hmem
          exact runsFrom_ne_singleton buf hbuf _ hmem c (isOperatorChar_not_num hc) rfl
        have h5' := h5 c hc
        have hc' := hcount c hc
        rw [List.count_append, List.count_append, hzero, count_map_singleton]
        have hcons : (ch :: rest).count c = rest.count c + [ch].count c := by
          simp [List.count_cons]
        rw [hcons]
        omega
      · intro t ht
        rcases List.mem_append.1 ht with ht | ht
        · rcases List.mem_append.1 ht with ht | ht
          · exact ⟨runsFrom_ne_singleton buf hbuf t ht '(' (by decide),
              runsFrom_ne_singleton buf hbuf t ht ')' (by decide)⟩
          · have hop := hpopTok t ht
            constructor <;>
            · intro hcc
              subst hcc
              exact absurd hop (by decide)
        · exact h6 t ht

/-- The shape of the postfix sequence of a successful conversion. -/
theorem toPostfix_shape (cs : List Char) (output : List String)
    (h : toPostfix cs = .ok output) :
    (∀ t ∈ output, t ≠ "(" ∧ t ≠ ")") ∧
      output.filter (fun t => !isOperatorToken t) = numRuns cs ∧
      (∀ c, isOperatorChar c = true → output.count (String.singleton c) = cs.count c) := by
  unfold toPostfix at h
  cases hscan : scan cs [] [] [] with
  | error e => simp [hscan] at h
  | ok r =>
    obtain ⟨out, operators, buf⟩ := r
    simp only [hscan] at h
    obtain ⟨hops, hbuf, added, h3, h4, h5, h6⟩ :=
      scan_shape cs [] [] [] _ hscan (by intro c hc; simp at hc) (by intro c hc; simp at hc)
    simp only [List.nil_append] at h3
    simp only at hops hbuf h4 h5
    subst h3
    obtain ⟨hout, hno⟩ := drain_ok operators _ _ h
    have hopsOp : ∀ c ∈ operators, isOperatorChar c = true := by
      intro c hc
      rcases hops c hc with hp | hp
      · exact absurd hp (hno c hc)
      · exact hp
    have hopTok : ∀ t ∈ operators.map String.singleton, isOperatorToken t = true := by
      intro t ht
      obtain ⟨c, hc, rfl⟩ := List.mem_map.1 ht
      rw [isOperatorToken_singleton]
      exact hopsOp c hc
    rw [flushBuffer_eq] at hout
    subst hout
    refine ⟨?_, ?_, ?_⟩
    · intro t ht
      rcases List.mem_append.1 ht with ht | ht
      · rcases List.mem_append.1 ht with ht | ht
        · exact h6 t ht
        · exact ⟨runsFrom_ne_singleton buf hbuf t ht '(' (by decide),
            runsFrom_ne_singleton buf hbuf t ht ')' (by decide)⟩
      · have hop := hopTok t ht
        constructor <;>
        · intro hcc
          subst hcc
          exact absurd hop (by decide)
    · have hf1 : (runsFrom buf []).filter (fun t => !isOperatorToken t) = runsFrom buf [] := by
        rw [List.filter_eq_self]
        intro t ht
        simp [runsFrom_not_operator buf hbuf t ht]
      have hf2 : (operators.map String.singleton).filter (fun t => !isOperatorToken t) = [] := by
        rw [List.filter_eq_nil_iff]
        intro t ht
        simp [hopTok t ht]
      rw [List.filter_append, List.filter_append, hf1, hf2, List.append_nil, h4,
        numRuns_eq_runsFrom]
    · intro c hc
      have hzero : (runsFrom buf []).count (String.singleton c) = 0 := by
        rw [List.count_eq_zero]
        intro hmem
        exact runsFrom_ne_singleton buf hbuf _ hmem c (isOperatorChar_not_num hc) rfl
      have h5' := h5 c hc
      simp only [List.count_nil, Nat.zero_add] at h5'
      rw [List.count_append, List.count_append, hzero, count_map_singleton]
      omega

/-! ## Theorem of the claim on the converter's output -/

/-- C18: shape of the converter's output: when the conversion part of `Calc`
succeeds, the postfix sequence handed to `evaluatePostfix` holds no "(" or ")"
token, its non-operator tokens are exactly the maximal runs of digits and `.` of
the space-stripped input in their order, and its operator tokens are a
permutation of the operator characters of the input (the same count of each of
`+ - * /`). -/
theorem converter_output_shape (s : String) (output : List String)
    (h : toPostfix (stripSpaces s) = .ok output) :
    "(" ∉ output ∧ ")" ∉ output ∧
      output.filter (fun t => !isOperatorToken t) = numRuns (stripSpaces s) ∧
      (output.filter isOperatorToken).Perm
        ((s.data.filter isOperatorChar).map String.singleton) ∧
      (∀ op : Op, output.count op.token = s.data.count op.char) := by
  obtain ⟨hparen, hruns, hcount⟩ := toPostfix_shape (stripSpaces s) output h
  have hstrip : ∀ c, isOperatorChar c = true → (stripSpaces s).count c = s.data.count c := by
    intro c hc
    have hne : c ≠ ' ' := by
      intro hcc
      subst hcc
      exact absurd hc (by decide)
    exact List.count_filter (by simpa using hne)
  refine ⟨fun hm => (hparen _ hm).1 rfl, fun hm => (hparen _ hm).2 rfl, hruns, ?_, ?_⟩
  · rw [List.perm_iff_count]
    intro a
    cases hop : isOperatorToken a with
    | true =>
      obtain ⟨op, rfl⟩ := (isOperatorToken_iff a).1 hop
      have hc : isOperatorChar op.char = true := (isOperatorChar_iff _).2 ⟨op, rfl⟩
      show List.count (String.singleton op.char) _ = List.count (String.singleton op.char) _
      rw [List.count_filter (by rw [isOperatorToken_singleton]; exact hc), hcount _ hc,
        hstrip _ hc, count_map_singleton, List.count_filter hc]
    | false =>
      have h1 : List.count a (output.filter isOperatorToken) = 0 := by
        rw [List.count_eq_zero]
        intro hm
        rw [(List.mem_filter.1 hm).2] at hop
        cases hop
      have h2 : List.count a ((s.data.filter isOperatorChar).map String.singleton) = 0 := by
        rw [List.count_eq_zero]
        intro hm
        obtain ⟨c, hc, rfl⟩ := List.mem_map.1 hm
        rw [isOperatorToken_singleton, (List.mem_filter.1 hc).2] at hop
        cases hop
      rw [h1, h2]
  · intro op
    have hc : isOperatorChar op.char = true := (isOperatorChar_iff _).2 ⟨op, rfl⟩
    show List.count (String.singleton op.char) output = _
    rw [hcount _ hc, hstrip _ hc]

theorem converter_output_shape_witness :
    toPostfix (stripSpaces "(1.5 + 2)*3 - 4/5")
        = .ok ["1.5", "2", "+", "3", "*", "4", "5", "/", "-"] ∧
      numRuns (stripSpaces "(1.5 + 2)*3 - 4/5") = ["1.5", "2", "3", "4", "5"] ∧
      (["1.5", "2", "+", "3", "*", "4", "5", "/", "-"].filter isOperatorToken).Perm
        (("(1.5 + 2)*3 - 4/5".data.filter isOperatorChar).map String.singleton) := by
  have hpost : toPostfix (stripSpaces "(1.5 + 2)*3 - 4/5")
      = .ok ["1.5", "2", "+", "3", "*", "4", "5", "/", "-"] := by decide
  have h := converter_output_shape "(1.5 + 2)*3 - 4/5" _ hpost
  refine ⟨hpost, ?_, h.2.2.2.1⟩
  rw [← h.2.2.1]
  decide

/-! ## Theorem of the claim on the leading minus -/

theorem Expr.leftTerm_wellFormed (c : Op) (e : Expr) (hwf : e.WellFormed) :
    (e.leftTerm c).WellFormed := by
  induction e with
  | lit text => exact hwf
  | paren e _ => exact hwf
  | bin op l r ihl _ =>
    by_cases hsplit : op.prec ≤ c.prec
    · simpa [Expr.leftTerm, hsplit] using ihl hwf.1
    · simpa [Expr.leftTerm, hsplit] using hwf

/-- Evaluating the postfix form of a tree of the grammar either fails or pushes
exactly one value. -/
theorem evalLoop_postfixForm_cases {F : Type} (M : FloatOps F) (e : Expr)
    (hg : e.Grammatical) :
    ∀ stack : List F, (∃ err, evalLoop M e.postfixForm stack = .error err) ∨
      ∃ w, evalLoop M e.postfixForm stack = .ok (w :: stack) := by
  induction e with
  | lit text =>
    intro stack
    cases hnum : isNumber M (String.mk text) with
    | false =>
      have hop : isOperatorToken (String.mk text) = false :=
        runsFrom_not_operator text hg.2 _ (by rw [runsFrom_nil_right]; simp [hg.1])
      refine Or.inl ?_
      by_cases hl : stack.length < 2
      · exact ⟨.notEnoughOperands (String.mk text),
          by simp [Expr.postfixForm, evalLoop, evalStep_unknown M _ stack hnum hop, hl]⟩
      · exact ⟨.invalidOperation (String.mk text),
          by simp [Expr.postfixForm, evalLoop, evalStep_unknown M _ stack hnum hop, hl]⟩
    | true =>
      obtain ⟨v, hv⟩ := (isNumber_iff M _).1 hnum
      exact Or.inr ⟨v, by simp [Expr.postfixForm, evalLoop, evalStep_number M _ v hv]⟩
  | paren e ih => exact ih hg
  | bin op l r ihl ihr =>
    intro stack
    simp only [Expr.postfixForm, List.append_assoc]
    rcases ihl hg.1 stack with ⟨err, h⟩ | ⟨a, h⟩
    · exact Or.inl ⟨err, by rw [evalLoop_append_eq, h]⟩
    · rw [evalLoop_append M _ _ _ _ h]
      rcases ihr hg.2 (a :: stack) with ⟨err, h2⟩ | ⟨b, h2⟩
      · exact Or.inl ⟨err, by rw [evalLoop_append_eq, h2]⟩
      · rw [evalLoop_append M _ _ _ _ h2]
        cases happ : op.apply M a b with
        | none =>
          exact Or.inl ⟨.divisionByZero, by simp [evalLoop, evalStep_operator, happ]⟩
        | some v => exact Or.inr ⟨v, by simp [evalLoop, evalStep_operator, happ]⟩

/-- C11 (amended): unary minus is not supported: for every expression made of
`-` followed by a syntactically complete infix expression (spaces allowed
anywhere), `Calc` never returns a number: the `-` is treated as a binary operator
lacking its left operand, it follows the leftmost operand it can take in the
postfix sequence, and evaluation fails with an evaluator error. The error is
"not enough operands for operation: -" when that leftmost operand evaluates, as
it does whenever all literals parse and no division has a zero right operand,
and otherwise the error raised inside that operand (a malformed literal, a
division by zero); in particular `Calc("-5")`. -/
theorem Calc_leading_minus {F : Type} (M : FloatOps F) (e : Expr) (s : String)
    (hwf : e.WellFormed) (hs : stripSpaces s = '-' :: e.render) :
    toPostfix (stripSpaces s)
        = .ok ((e.leftTerm .minus).postfixForm ++ "-" :: e.restTokens .minus) ∧
      (∃ err, Calc M s = .error err ∧ err.IsEvaluatorKind) ∧
      (∀ v, Calc M s ≠ .ok v) ∧
      (∀ err, evalLoop M (e.leftTerm .minus).postfixForm [] = .error err →
        Calc M s = .error err) ∧
      ((∃ w, (e.leftTerm .minus).eval M = some w) →
        Calc M s = .error (.notEnoughOperands "-")) ∧
      (e.LiteralsParse M → e.NoZeroDivisor M →
        Calc M s = .error (.notEnoughOperands "-")) ∧
      Calc decOps "-5" = .error (.notEnoughOperands "-") := by
  have hpost : toPostfix (stripSpaces s)
      = .ok ((e.leftTerm .minus).postfixForm ++ "-" :: e.restTokens .minus) := by
    rw [hs]
    exact toPostfix_operator_render .minus e hwf
  have hne : stripSpaces s ≠ [] := by
    rw [hs]
    simp
  have hcalc : Calc M s
      = evaluatePostfix M ((e.leftTerm .minus).postfixForm ++ "-" :: e.restTokens .minus) := by
    simp [Calc, hne, hpost]
  have hfail : ∀ err, evalLoop M (e.leftTerm .minus).postfixForm [] = .error err →
      Calc M s = .error err := by
    intro err herr
    rw [hcalc]
    unfold evaluatePostfix
    rw [evalLoop_append_eq, herr]
  have hshort : ∀ w, evalLoop M (e.leftTerm .minus).postfixForm [] = .ok [w] →
      Calc M s = .error (.notEnoughOperands "-") := by
    intro w hw
    have hstep := evalStep_operator_short M .minus w
    have ht : Op.minus.token = "-" := by decide
    rw [ht] at hstep
    rw [hcalc]
    unfold evaluatePostfix
    rw [evalLoop_append M _ _ [] [w] hw]
    simp [evalLoop, hstep]
  have herror : ∃ err, Calc M s = .error err := by
    rcases evalLoop_postfixForm_cases M (e.leftTerm .minus)
      (e.leftTerm_wellFormed .minus hwf).grammatical [] with ⟨err, h⟩ | ⟨w, h⟩
    · exact ⟨err, hfail err h⟩
    · exact ⟨_, hshort w h⟩
  have hleft : (∃ w, (e.leftTerm .minus).eval M = some w) →
      Calc M s = .error (.notEnoughOperands "-") := by
    rintro ⟨w, hw⟩
    exact hshort w (evalLoop_postfixForm M _ w hw [])
  obtain ⟨err, herr⟩ := herror
  refine ⟨hpost, ⟨err, herr, ?_⟩, ?_, hfail, hleft, ?_, by decide⟩
  · rw [hcalc] at herr
    exact evaluatePostfix_error_kind M _ err herr
  · intro v hv
    rw [herr] at hv
    cases hv
  · intro hp hz
    obtain ⟨v, hv⟩ := e.eval_defined M hp hz
    exact hleft (e.eval_leftTerm M .minus v hv)

theorem Calc_leading_minus_witness :
    (sampleExpr.WellFormed ∧ stripSpaces "- 2 + 3*(4 - 1)/2" = '-' :: sampleExpr.render ∧
        toPostfix (stripSpaces "- 2 + 3*(4 - 1)/2")
          = .ok ["2", "-", "3", "4", "1", "-", "*", "2", "/", "+"] ∧
        Calc decOps "- 2 + 3*(4 - 1)/2" = .error (.notEnoughOperands "-")) ∧
      ((Expr.bin .times (.lit ['1']) (.lit ['2', '.', '3', '.', '4'])).WellFormed ∧
        stripSpaces "-1*2.3.4"
          = '-' :: (Expr.bin .times (.lit ['1']) (.lit ['2', '.', '3', '.', '4'])).render ∧
        (∃ err, Calc decOps "-1*2.3.4" = .error err ∧ err.IsEvaluatorKind) ∧
        Calc decOps "-1*2.3.4" = .error (.notEnoughOperands "2.3.4")) := by
  have hwf : sampleExpr.WellFormed := by
    simp [sampleExpr, Expr.WellFormed, Expr.level]
    decide
  have hs : stripSpaces "- 2 + 3*(4 - 1)/2" = '-' :: sampleExpr.render := by decide
  have h := Calc_leading_minus decOps sampleExpr "- 2 + 3*(4 - 1)/2" hwf hs
  have hwf2 : (Expr.bin .times (.lit ['1']) (.lit ['2', '.', '3', '.', '4'])).WellFormed := by
    simp [Expr.WellFormed, Expr.level]
    decide
  have hs2 : stripSpaces "-1*2.3.4"
      = '-' :: (Expr.bin .times (.lit ['1']) (.lit ['2', '.', '3', '.', '4'])).render := by
    decide
  have h2 := Calc_leading_minus decOps _ "-1*2.3.4" hwf2 hs2
  exact ⟨⟨hwf, hs, by decide, h.2.2.2.2.1 ⟨2, rfl⟩⟩, ⟨hwf2, hs2, h2.2.1, by decide⟩⟩

end Calculator
